import Mathlib

/-!
Shallow embedding of the CodePulse coverage-report pipeline
(`src/parsers/coverage_parser.py` and `src/utils/coverage_analyzer.py`)
and proofs checking the specification's claims against it.

Modelling conventions:
* Python strings are modelled as `List Char` (`PStr`); the Python string
  operations used by the source (`strip`, `startswith`, `endswith`, slicing,
  `split`, `in`, `lower`, `int(...)`) are re-implemented structurally below so
  that every definition is executable by kernel reduction.
* Python `float` percentages are modelled as `ℚ`; `round(x, 2)` is modelled as
  round-half-up at two decimals (`round2`).  None of the claims settled here
  depends on the float-vs-rational distinction or on tie-breaking of `round`.
* Fallible Python code (statements that can raise) is modelled in the
  `Except PyExn` monad; `try/except` blocks become explicit handlers.
* `xml.etree.ElementTree` documents are modelled by the rose tree `XTree`;
  `ET.fromstring` itself is not modelled: an input carries the parse result
  (`Except Unit XTree`, `.error` = `ET.ParseError`) alongside its text.
-/

namespace CodePulse

/-! ## Python string primitives -/

/-- Python strings, as character lists (`String.data`). -/
abbrev PStr := List Char

/-- Literal helper: the character list of a Lean string literal. -/
def pstr (s : String) : PStr := s.data

/-- Python whitespace characters recognised by `str.strip()`. -/
def isPyWs (c : Char) : Bool :=
  c = ' ' || c = '\t' || c = '\n' || c = '\r' || c = '\x0b' || c = '\x0c'

/-- Models Python `str.strip()`. -/
def pTrim (l : PStr) : PStr :=
  ((l.dropWhile isPyWs).reverse.dropWhile isPyWs).reverse

/-- Models Python slicing `s[n:]`. -/
def pDrop (l : PStr) (n : Nat) : PStr := l.drop n

/-- Models Python `s.startswith(p)`. -/
def pStartsWith (l p : PStr) : Bool := p.isPrefixOf l

/-- Models Python `s.endswith(p)`. -/
def pEndsWith (l p : PStr) : Bool := p.isSuffixOf l

/-- Models Python `s.lower()` (ASCII case folding suffices for the inputs the
source inspects). -/
def pToLower (l : PStr) : PStr := l.map Char.toLower

/-- Models Python `sub in s` (substring containment). -/
def pContainsSub : PStr → PStr → Bool
  | [], p => p.isEmpty
  | l@(_ :: t), p => p.isPrefixOf l || pContainsSub t p

/-- Models Python `s.split(sep)` for a one-character separator (the source only
splits on `'\n'` and `','`): split at every occurrence, keeping empty pieces. -/
def pSplitChar (sep : Char) : PStr → List PStr
  | [] => [[]]
  | c :: t =>
    let r := pSplitChar sep t
    if c = sep then [] :: r
    else
      match r with
      | [] => [[c]]
      | h :: rt => (c :: h) :: rt

/-- Accumulating decimal-digit reader; `none` on the first non-digit. -/
def digitsVal (acc : Nat) : List Char → Option Nat
  | [] => some acc
  | c :: t => if c.isDigit then digitsVal (acc * 10 + (c.toNat - 48)) t else none

/-- Reads a nonempty all-digit string as a natural number. -/
def pToNatDigits : List Char → Option Nat
  | [] => none
  | ds => digitsVal 0 ds

/-- Models Python `int(s)` for decimal input: strips whitespace, accepts an
optional sign, then requires nonempty digits; `none` models a raised
`ValueError`.  (Underscore digit separators and non-ASCII digits, which Python
also accepts, do not occur in the formats parsed here.) -/
def pToInt (l : PStr) : Option Int :=
  match pTrim l with
  | '-' :: ds => (pToNatDigits ds).map (fun n => -(n : Int))
  | '+' :: ds => (pToNatDigits ds).map (fun n => (n : Int))
  | ds => (pToNatDigits ds).map (fun n => (n : Int))

/-- Decimal digits of a natural number (fuel-based so that the definition is
structural; the fuel argument is always taken `≥ n + 1`). -/
def natToChars : Nat → Nat → List Char
  | 0, _ => []
  | fuel + 1, n =>
    if n < 10 then [Char.ofNat (48 + n)]
    else natToChars fuel (n / 10) ++ [Char.ofNat (48 + n % 10)]

/-- Models Python `str(i)` for an integer. -/
def intToPStr (i : Int) : PStr :=
  if i < 0 then '-' :: natToChars (i.natAbs + 1) i.natAbs
  else natToChars (i.toNat + 1) i.toNat

/-! ## Python numeric and exception modelling -/

/-- Models Python `round(q, 2)` (round to two decimals; half-up stands in for
float banker's rounding — no claim depends on tie behaviour). -/
def round2 (q : ℚ) : ℚ := ((⌊q * 100 + 1 / 2⌋ : ℤ) : ℚ) / 100

/-- Models the source's percentage computation
`round((covered / total) * 100, 2)`. -/
def pyPct (c t : Int) : ℚ := round2 ((c : ℚ) / (t : ℚ) * 100)

/-- Exceptions the embedded code can raise: `UnicodeDecodeError` from
`bytes.decode('utf-8')` and `ValueError` from `int(...)`.
(`ET.ParseError` is represented by the `.error` case of a pre-parsed
`Except Unit XTree` and never crosses `_parse_xml_coverage`.) -/
inductive PyExn where
  | unicodeDecodeError
  | valueError
deriving DecidableEq

/-- Both modelled exception types are subclasses of Python `Exception`, hence
caught by the `except Exception` handler in `parse_file`. -/
def pyExnCaught : PyExn → Bool := fun _ => true

/-- Models a Python `dict` write `d[k] = v` on an insertion-ordered dictionary
represented as an association list: overwrite in place if the key exists,
otherwise append. -/
def dictInsert {β : Type} (d : List (PStr × β)) (k : PStr) (v : β) :
    List (PStr × β) :=
  if d.any (fun p => p.1 == k) then
    d.map (fun p => if p.1 == k then (k, v) else p)
  else d ++ [(k, v)]

/-! ## XML document model -/

/-- Rose tree model of an `xml.etree.ElementTree` element: tag, attribute
dictionary, child elements. -/
inductive XTree where
  | node (tag : PStr) (attrs : List (PStr × PStr)) (children : List XTree)

/-- Tag of an element. -/
def XTree.tag : XTree → PStr
  | .node t _ _ => t

/-- Attribute dictionary of an element. -/
def XTree.attrs : XTree → List (PStr × PStr)
  | .node _ a _ => a

/-- Child elements of an element. -/
def XTree.children : XTree → List XTree
  | .node _ _ c => c

mutual
/-- All proper descendants of an element, in document (preorder) order —
the result set of `elem.findall('.//…')` before tag filtering. -/
def XTree.desc : XTree → List XTree
  | .node _ _ cs => XTree.descList cs
/-- Descendant collection over a child list. -/
def XTree.descList : List XTree → List XTree
  | [] => []
  | c :: cs => c :: XTree.desc c ++ XTree.descList cs
end

/-- Models `elem.findall('.//tag')`: all descendants with the given tag, in
document order. -/
def findAllTag (t : XTree) (tg : PStr) : List XTree :=
  t.desc.filter (fun c => c.tag == tg)

/-- Models `elem.attrib.get(k)` (`None` when absent). -/
def attrGet (t : XTree) (k : PStr) : Option PStr := t.attrs.lookup k

/-- Models `int(elem.attrib.get(k, 0))`: the default `0` is already an `int`,
so an absent attribute yields `0`; a present attribute is parsed with
`int(...)` and raises `ValueError` when non-numeric. -/
def intOfStr (s : PStr) : Except PyExn Int :=
  match pToInt s with
  | some v => .ok v
  | none => .error .valueError

def pyIntAttr (t : XTree) (k : PStr) : Except PyExn Int :=
  match attrGet t k with
  | none => .ok 0
  | some s => intOfStr s

/-! ## Canonical report model -/

/-- The `overall` dictionary of a parsed report.  Fields the source only sets
for some formats are `Option`s (`none` = key absent from the dictionary). -/
structure Overall where
  lines_covered : Int
  lines_total : Int
  branches_covered : Option Int
  branches_total : Option Int
  functions_covered : Option Int
  functions_total : Option Int
  coverage_percentage : ℚ

/-- One entry of the report's `files` list. -/
structure FileEntry where
  path : PStr
  coverage_percentage : ℚ
  lines_covered : Int
  lines_total : Int
  functions_covered : Option Int
  functions_total : Option Int
  branches_covered : Option Int
  branches_total : Option Int
  line_coverage : List (PStr × Bool)

/-- The normalized coverage dictionary returned by the parser. -/
structure Report where
  format : PStr
  overall : Overall
  files : List FileEntry

/-- Sum of `lines_covered` over a file list (loop-accumulated in the source). -/
def sumCovered (fs : List FileEntry) : Int :=
  fs.foldl (fun a fe => a + fe.lines_covered) 0

/-- Sum of `lines_total` over a file list. -/
def sumTotal (fs : List FileEntry) : Int :=
  fs.foldl (fun a fe => a + fe.lines_total) 0

/-! ## XML coverage parsers -/

/-- Effectful map over a list (models a Python list comprehension whose body
may raise). -/
def exMapM {α β : Type} (f : α → Except PyExn β) : List α → Except PyExn (List β)
  | [] => .ok []
  | a :: l => do
    let b ← f a
    let bs ← exMapM f l
    .ok (b :: bs)

/-- Builds the per-line boolean map: for each `line` element, key
`str(int(numKey))`, value `int(hitKey) > 0` (shared shape of the Cobertura
`number`/`hits` and JaCoCo `nr`/`ci` loops). -/
def buildLineCov (numKey hitKey : PStr) (lines : List XTree) :
    Except PyExn (List (PStr × Bool)) :=
  lines.foldlM
    (fun d l => do
      let num ← pyIntAttr l numKey
      let h ← pyIntAttr l hitKey
      .ok (dictInsert d (intToPStr num) (decide (h > 0))))
    []

/-- One iteration of the Cobertura `package → class` loop
(`_parse_cobertura_xml`, lines 90–113): `none` models `continue` on a class
with no `filename`. -/
def coberturaFileEntry (c : XTree) : Except PyExn (Option FileEntry) :=
  let filename := (attrGet c (pstr "filename")).getD []
  if filename = [] then .ok none
  else do
    let lines := findAllTag c (pstr "line")
    let hs ← exMapM (fun l => pyIntAttr l (pstr "hits")) lines
    let lines_covered : Int := ((hs.filter (fun h => decide (h > 0))).length : Int)
    let lines_total : Int := (lines.length : Int)
    let pct : ℚ := if lines_total > 0 then pyPct lines_covered lines_total else 0
    let lc ← buildLineCov (pstr "number") (pstr "hits") lines
    .ok (some
      { path := filename
        coverage_percentage := pct
        lines_covered := lines_covered
        lines_total := lines_total
        functions_covered := none
        functions_total := none
        branches_covered := none
        branches_total := none
        line_coverage := lc })

/-- The Cobertura file loop, flattened over `root.findall('.//package')` then
`package.findall('.//class')`; appends produced entries in iteration order. -/
def coberturaFilesList : List XTree → Except PyExn (List FileEntry)
  | [] => .ok []
  | c :: rest => do
    let ofe ← coberturaFileEntry c
    let fs ← coberturaFilesList rest
    match ofe with
    | none => .ok fs
    | some fe => .ok (fe :: fs)

/-- Models `_parse_cobertura_xml`: overall totals read verbatim from the root
attributes (defaulting to `0` when absent), percentage derived from them, file
entries from the `package → class` walk. -/
def parseCoberturaXml (root : XTree) : Except PyExn Report := do
  let overall_lines ← pyIntAttr root (pstr "lines-valid")
  let overall_covered ← pyIntAttr root (pstr "lines-covered")
  let overall_branches ← pyIntAttr root (pstr "branches-valid")
  let overall_branches_covered ← pyIntAttr root (pstr "branches-covered")
  let pct : ℚ := if overall_lines > 0 then pyPct overall_covered overall_lines else 0
  let files ← coberturaFilesList
    ((findAllTag root (pstr "package")).flatMap (fun p => findAllTag p (pstr "class")))
  .ok
    { format := pstr "cobertura"
      overall :=
        { lines_covered := overall_covered
          lines_total := overall_lines
          branches_covered := some overall_branches_covered
          branches_total := some overall_branches
          functions_covered := none
          functions_total := none
          coverage_percentage := pct }
      files := files }

/-- The `(package name, sourcefile element)` pairs the JaCoCo loop iterates
over: `root.findall('.//package')`, then `package.findall('.//sourcefile')`. -/
def jacocoPairs (root : XTree) : List (PStr × XTree) :=
  (findAllTag root (pstr "package")).flatMap
    (fun p => (findAllTag p (pstr "sourcefile")).map
      (fun sf => ((attrGet p (pstr "name")).getD [], sf)))

/-- One iteration of the JaCoCo `package → sourcefile` loop
(`_parse_jacoco_xml`, lines 145–180): `none` models `continue` on a
sourcefile with no `name`; the path is `package name + '/' + name` when the
package name is nonempty. -/
def jacocoFileEntry (pname : PStr) (sf : XTree) : Except PyExn (Option FileEntry) :=
  let fname := (attrGet sf (pstr "name")).getD []
  if fname = [] then .ok none
  else do
    let path := if pname ≠ [] then pname ++ pstr "/" ++ fname else fname
    let lines := findAllTag sf (pstr "line")
    let cs ← exMapM (fun l => pyIntAttr l (pstr "ci")) lines
    let lines_covered : Int := ((cs.filter (fun h => decide (h > 0))).length : Int)
    let lines_total : Int := (lines.length : Int)
    let pct : ℚ := if lines_total > 0 then pyPct lines_covered lines_total else 0
    let lc ← buildLineCov (pstr "nr") (pstr "ci") lines
    .ok (some
      { path := path
        coverage_percentage := pct
        lines_covered := lines_covered
        lines_total := lines_total
        functions_covered := none
        functions_total := none
        branches_covered := none
        branches_total := none
        line_coverage := lc })

/-- The JaCoCo file loop over the `(package name, sourcefile)` pairs. -/
def jacocoFilesList : List (PStr × XTree) → Except PyExn (List FileEntry)
  | [] => .ok []
  | pr :: rest => do
    let ofe ← jacocoFileEntry pr.1 pr.2
    let fs ← jacocoFilesList rest
    match ofe with
    | none => .ok fs
    | some fe => .ok (fe :: fs)

/-- Models `_parse_jacoco_xml`: file entries from the `package → sourcefile`
walk; overall totals are the running sums accumulated over the produced
entries (no root attribute is read). -/
def parseJacocoXml (root : XTree) : Except PyExn Report := do
  let files ← jacocoFilesList (jacocoPairs root)
  let tc := sumCovered files
  let tt := sumTotal files
  let pct : ℚ := if tt > 0 then pyPct tc tt else 0
  .ok
    { format := pstr "jacoco"
      overall :=
        { lines_covered := tc
          lines_total := tt
          branches_covered := some 0
          branches_total := some 0
          functions_covered := none
          functions_total := none
          coverage_percentage := pct }
      files := files }

/-- Models `_parse_generic_xml`: fixed empty-but-valid report (its `overall`
dictionary has no branch or function keys). -/
def parseGenericXml (_root : XTree) : Report :=
  { format := pstr "generic_xml"
    overall :=
      { lines_covered := 0
        lines_total := 0
        branches_covered := none
        branches_total := none
        functions_covered := none
        functions_total := none
        coverage_percentage := 0 }
    files := [] }

/-- Models `_parse_xml_coverage` on a pre-parsed document: an `ET.ParseError`
(`.error` input) is caught and yields `None`; otherwise dispatch on the root
tag (`coverage`/Cobertura `dtd` hint, `report`, generic fallback).
`ValueError` from `int(...)` inside the format parsers propagates. -/
def parseXmlCoverage (xml : Except Unit XTree) : Except PyExn (Option Report) :=
  match xml with
  | .error _ => .ok none
  | .ok root =>
    if root.tag == pstr "coverage"
        || pContainsSub (pToLower ((attrGet root (pstr "dtd")).getD [])) (pstr "cobertura") then
      (parseCoberturaXml root).map some
    else if root.tag == pstr "report" then
      (parseJacocoXml root).map some
    else
      .ok (some (parseGenericXml root))

/-! ## LCOV parser -/

/-- Fresh per-file accumulator created on `SF:` (the dictionary literal at
`_parse_lcov`, lines 234–242; branch keys are absent until `BRH:`/`BRF:`). -/
def initLcovFile (path : PStr) : FileEntry :=
  { path := path
    coverage_percentage := 0
    lines_covered := 0
    lines_total := 0
    functions_covered := some 0
    functions_total := some 0
    branches_covered := none
    branches_total := none
    line_coverage := [] }

/-- Percentage finalisation applied when a file is flushed by
`end_of_record` or at end of input. -/
def lcovFlushPct (f : FileEntry) : FileEntry :=
  if f.lines_total > 0 then
    { f with coverage_percentage := pyPct f.lines_covered f.lines_total }
  else f

/-- Scan state of `_parse_lcov`: flushed files, the open accumulator, and the
running overall totals. -/
structure LcovState where
  files : List FileEntry
  current : Option FileEntry
  totalCovered : Int
  totalTotal : Int

/-- One iteration of the `_parse_lcov` line loop.  Note the `SF:` branch
flushes an open accumulator to `files` without adding its counts to the
running totals — exactly as the source does. -/
def lcovStep (st : LcovState) (rawLine : PStr) : Except PyExn LcovState :=
  let line := pTrim rawLine
  if pStartsWith line (pstr "SF:") then
    let files := match st.current with
      | some f => st.files ++ [f]
      | none => st.files
    .ok { st with files := files, current := some (initLcovFile (pTrim (pDrop line 3))) }
  else
    match st.current with
    | none => .ok st
    | some cur =>
      if pStartsWith line (pstr "DA:") then
        match pSplitChar ',' (pDrop line 3) with
        | p0 :: p1 :: _ =>
          match pToInt (pTrim p1) with
          | none => .error .valueError
          | some hit =>
            let cur' : FileEntry :=
              { cur with
                line_coverage := dictInsert cur.line_coverage (pTrim p0) (decide (hit > 0))
                lines_total := cur.lines_total + 1
                lines_covered := cur.lines_covered + (if hit > 0 then 1 else 0) }
            .ok { st with current := some cur' }
        | _ => .ok st
      else if pStartsWith line (pstr "LH:") then
        match pToInt (pDrop line 3) with
        | none => .error .valueError
        | some v => .ok { st with current := some { cur with lines_covered := v } }
      else if pStartsWith line (pstr "LF:") then
        match pToInt (pDrop line 3) with
        | none => .error .valueError
        | some v => .ok { st with current := some { cur with lines_total := v } }
      else if pStartsWith line (pstr "FNH:") then
        match pToInt (pDrop line 4) with
        | none => .error .valueError
        | some v => .ok { st with current := some { cur with functions_covered := some v } }
      else if pStartsWith line (pstr "FNF:") then
        match pToInt (pDrop line 4) with
        | none => .error .valueError
        | some v => .ok { st with current := some { cur with functions_total := some v } }
      else if pStartsWith line (pstr "BRH:") then
        match pToInt (pDrop line 4) with
        | none => .error .valueError
        | some v => .ok { st with current := some { cur with branches_covered := some v } }
      else if pStartsWith line (pstr "BRF:") then
        match pToInt (pDrop line 4) with
        | none => .error .valueError
        | some v => .ok { st with current := some { cur with branches_total := some v } }
      else if line == pstr "end_of_record" then
        let f := lcovFlushPct cur
        .ok { files := st.files ++ [f]
              current := none
              totalCovered := st.totalCovered + f.lines_covered
              totalTotal := st.totalTotal + f.lines_total }
      else .ok st

/-- Models the body of `_parse_lcov` on the already-split line list: the scan,
the trailing flush of an open accumulator (this one does add to the totals),
and the overall dictionary. -/
def parseLcovLines (ls : List PStr) : Except PyExn Report := do
  let st ← ls.foldlM lcovStep ⟨[], none, 0, 0⟩
  let fin : List FileEntry × Int × Int :=
    match st.current with
    | some cur =>
      let f := lcovFlushPct cur
      (st.files ++ [f], st.totalCovered + f.lines_covered, st.totalTotal + f.lines_total)
    | none => (st.files, st.totalCovered, st.totalTotal)
  let pct : ℚ := if fin.2.2 > 0 then pyPct fin.2.1 fin.2.2 else 0
  .ok
    { format := pstr "lcov"
      overall :=
        { lines_covered := fin.2.1
          lines_total := fin.2.2
          branches_covered := some 0
          branches_total := some 0
          functions_covered := some 0
          functions_total := some 0
          coverage_percentage := pct }
      files := fin.1 }

/-- Models `_parse_lcov` on raw content: split on `'\n'`, scan, and catch any
raised exception into `None` (its own `try/except`). -/
def parseLcovText (content : PStr) : Option Report :=
  match parseLcovLines (pSplitChar '\n' content) with
  | .ok r => some r
  | .error _ => none

/-! ## parse_file -/

/-- Model of the uploaded file object as `parse_file` observes it:
the `filename` attribute, whether `content.decode('utf-8')` succeeds
(`decodeOk = false` models a raised `UnicodeDecodeError`), the decoded text,
and the result `ET.fromstring` would produce on that text
(`.error` = `ET.ParseError`, i.e. malformed XML). -/
structure UploadFile where
  filename : PStr
  decodeOk : Bool
  text : PStr
  xml : Except Unit XTree

/-- Models the `try` body of `parse_file`: decode, sniff by filename extension
and content markers, dispatch to the XML or LCOV parser, with the
XML-then-LCOV fallback in the unhinted case. -/
def parseFileE (f : UploadFile) : Except PyExn (Option Report) :=
  if !f.decodeOk then .error .unicodeDecodeError
  else
    let content := f.text
    let filename := pToLower f.filename
    if pEndsWith filename (pstr ".xml")
        || pContainsSub content (pstr "<coverage")
        || pContainsSub content (pstr "<report") then
      parseXmlCoverage f.xml
    else if pEndsWith filename (pstr ".info")
        || pStartsWith filename (pstr "lcov")
        || pContainsSub content (pstr "TN:") then
      .ok (parseLcovText content)
    else
      match parseXmlCoverage f.xml with
      | .error e => .error e
      | .ok (some r) => .ok (some r)
      | .ok none => .ok (parseLcovText content)

/-- Models `parse_file` including its `except Exception` handler: an exception
escapes to the caller only if it is not caught (never, see
`parse_file_total`). -/
def parseFileOutcome (f : UploadFile) : Except PyExn (Option Report) :=
  match parseFileE f with
  | .ok r => .ok r
  | .error e => if pyExnCaught e then .ok none else .error e

/-- The value `parse_file` returns: a report dictionary or `None`. -/
def parseFile (f : UploadFile) : Option Report :=
  match parseFileOutcome f with
  | .ok r => r
  | .error _ => none

/-! ## Stable insertion sort

Models Python's stable `list.sort` with respect to a boolean "may come
before" relation.  Only sortedness and permutation are claimed of it. -/

/-- Inserts `x` before the first element it may precede. -/
def insertLe {α : Type} (le : α → α → Bool) (x : α) : List α → List α
  | [] => [x]
  | y :: ys => if le x y then x :: y :: ys else y :: insertLe le x ys

/-- Stable insertion sort. -/
def sortLe {α : Type} (le : α → α → Bool) : List α → List α
  | [] => []
  | x :: xs => insertLe le x (sortLe le xs)

/-! ## Gap detector (`get_file_coverage_details`) -/

/-- The uncovered line numbers of a line-coverage map, in dictionary order.
The map is modelled with integer keys (the source converts each string key
with `int(...)`; on parser-produced maps this conversion is injective). -/
def uncoveredKeys (m : List (Int × Bool)) : List Int :=
  (m.filter (fun p => !p.2)).map Prod.fst

/-- Ascending order on `ℤ`, as used by `uncovered_lines.sort()`. -/
def intAsc : Int → Int → Bool := fun a b => decide (a ≤ b)

/-- The gap-accumulation loop of `get_file_coverage_details` (lines 131–143):
`s`/`e` are `gap_start`/`gap_end`; the remaining sorted uncovered lines are
consumed one by one, and the final open gap is appended at the end. -/
def buildGaps (s e : Int) : List Int → List (Int × Int)
  | [] => [(s, e)]
  | n :: rest => if n = e + 1 then buildGaps s n rest else (s, e) :: buildGaps n n rest

/-- Models the `coverage_gaps` computation: sort the uncovered line numbers
ascending and group maximal consecutive runs into inclusive ranges. -/
def coverageGaps (m : List (Int × Bool)) : List (Int × Int) :=
  match sortLe intAsc (uncoveredKeys m) with
  | [] => []
  | h :: t => buildGaps h h t

/-! ## Diff engine (`compare_coverage_reports`) -/

/-- The fields of a stored `FileCoverage` row that the diff engine reads
(the row's `file_path` is carried as the association-list key). -/
structure DbFileCov where
  coverage_percentage : ℚ
  lines_covered : Int

/-- The fields of a stored `CoverageReport` row that the diff engine reads,
together with its `FileCoverage` rows. -/
structure DbReport where
  coverage_percentage : ℚ
  lines_covered : Int
  lines_total : Int
  files : List (PStr × DbFileCov)

/-- One entry of the diff's `file_changes` list. -/
structure FileChange where
  file_path : PStr
  status : PStr
  coverage_change : ℚ
  lines_change : Int
  old_coverage : ℚ
  new_coverage : ℚ

/-- Models `{fc.file_path: fc for fc in …}`: later rows with a duplicate path
overwrite earlier ones. -/
def buildDict (rows : List (PStr × DbFileCov)) : List (PStr × DbFileCov) :=
  rows.foldl (fun d p => dictInsert d p.1 p.2) []

/-- Models `set(files1.keys()) | set(files2.keys())`.  A Python set iterates
in unspecified order; this model enumerates first report's keys then the
second's new ones.  The choice is immaterial: the only ordering the code
exposes is the sort applied afterwards. -/
def unionKeys (d1 d2 : List (PStr × DbFileCov)) : List PStr :=
  d1.map Prod.fst ++ (d2.map Prod.fst).filter (fun k => !(d1.map Prod.fst).contains k)

/-- The per-path body of the `for file_path in all_files` loop: modified /
added / removed classification with the corresponding deltas.  The
`none, none` case cannot arise for a path drawn from the key union (in the
source it would raise `KeyError`); the dummy value keeps the function total. -/
def mkFileChange (files1 files2 : List (PStr × DbFileCov)) (p : PStr) : FileChange :=
  match files1.lookup p, files2.lookup p with
  | some f1, some f2 =>
    { file_path := p
      status := pstr "modified"
      coverage_change := f2.coverage_percentage - f1.coverage_percentage
      lines_change := f2.lines_covered - f1.lines_covered
      old_coverage := f1.coverage_percentage
      new_coverage := f2.coverage_percentage }
  | none, some f2 =>
    { file_path := p
      status := pstr "added"
      coverage_change := f2.coverage_percentage
      lines_change := f2.lines_covered
      old_coverage := 0
      new_coverage := f2.coverage_percentage }
  | some f1, none =>
    { file_path := p
      status := pstr "removed"
      coverage_change := -f1.coverage_percentage
      lines_change := -f1.lines_covered
      old_coverage := f1.coverage_percentage
      new_coverage := 0 }
  | none, none =>
    { file_path := p
      status := pstr "modified"
      coverage_change := 0
      lines_change := 0
      old_coverage := 0
      new_coverage := 0 }

/-- Descending comparison by absolute coverage delta, as in
`sort(key=lambda x: abs(x['coverage_change']), reverse=True)`. -/
def absDeltaGe (a b : FileChange) : Bool :=
  decide (|b.coverage_change| ≤ |a.coverage_change|)

/-- Models `compare_coverage_reports`: the overall element-wise deltas and the
sorted per-file change list. -/
def compareCoverageReports (r1 r2 : DbReport) : (ℚ × Int × Int) × List FileChange :=
  let files1 := buildDict r1.files
  let files2 := buildDict r2.files
  let changes := (unionKeys files1 files2).map (mkFileChange files1 files2)
  ((r2.coverage_percentage - r1.coverage_percentage,
    r2.lines_covered - r1.lines_covered,
    r2.lines_total - r1.lines_total),
   sortLe absDeltaGe changes)

/-! ## Spec-side formulas (for refinement claims) -/

/-- Follows the spec's words for the JaCoCo totals: the `line` elements
reached by walking `package → sourcefile → line`. -/
def specJacocoLineElems (root : XTree) : List XTree :=
  (findAllTag root (pstr "package")).flatMap
    (fun p => (findAllTag p (pstr "sourcefile")).flatMap
      (fun sf => findAllTag sf (pstr "line")))

/-- Follows the spec's words: a `line` element counts as covered when its
`ci` attribute parses to a positive integer. -/
def ciStrPos (s : PStr) : Bool :=
  match pToInt s with
  | some v => decide (v > 0)
  | none => false

def specLineCiPos (l : XTree) : Bool :=
  match attrGet l (pstr "ci") with
  | none => false
  | some s => ciStrPos s

/-! ## Concrete inputs used by counterexamples and witnesses -/

/-- Cobertura document whose root claims more covered lines than valid
lines (`ET.fromstring` result of `cx1file.text`). -/
def cx1root : XTree :=
  .node (pstr "coverage") [(pstr "lines-valid", pstr "1"), (pstr "lines-covered", pstr "2")] []

/-- Upload of that document under a `.xml` filename. -/
def cx1file : UploadFile :=
  { filename := pstr "coverage.xml"
    decodeOk := true
    text := pstr "<coverage lines-valid=\x221\x22 lines-covered=\x222\x22></coverage>"
    xml := .ok cx1root }

/-- The report `parse_file` produces for `cx1file`. -/
def cx1report : Report :=
  { format := pstr "cobertura"
    overall :=
      { lines_covered := 2
        lines_total := 1
        branches_covered := some 0
        branches_total := some 0
        functions_covered := none
        functions_total := none
        coverage_percentage := pyPct 2 1 }
    files := [] }

/-- LCOV content whose first file record is terminated by the next `SF:`
rather than by `end_of_record`. -/
def cx2content : PStr := pstr "SF:a.py\nDA:1,1\nSF:b.py\nDA:1,1\nend_of_record"

/-- Empty upload under an LCOV filename hint (`ET.fromstring('')` raises, so
the `xml` field is `.error`). -/
def cx3file : UploadFile :=
  { filename := pstr "lcov.info", decodeOk := true, text := [], xml := .error () }

/-- Upload whose bytes do not decode as UTF-8. -/
def cx3badBytes : UploadFile :=
  { filename := pstr "coverage.xml", decodeOk := false, text := [], xml := .error () }

/-- Truncated-tag XML upload with no filename hint and no sniffer marker
(`<foo` contains neither `<coverage` nor `<report` nor `TN:`). -/
def cx4file : UploadFile :=
  { filename := pstr "data.txt", decodeOk := true, text := pstr "<foo", xml := .error () }

/-- Truncated-tag XML upload that the sniffer routes to the XML parser. -/
def cx4xmlFile : UploadFile :=
  { filename := pstr "report.xml", decodeOk := true, text := pstr "<coverage 1=", xml := .error () }

/-- Cobertura document whose per-file sums (1 of 1) disagree with its root
summary attributes (5 of 10). -/
def w5root : XTree :=
  .node (pstr "coverage")
    [(pstr "lines-valid", pstr "10"), (pstr "lines-covered", pstr "5")]
    [.node (pstr "packages") []
      [.node (pstr "package") []
        [.node (pstr "classes") []
          [.node (pstr "class") [(pstr "filename", pstr "x.py")]
            [.node (pstr "lines") []
              [.node (pstr "line") [(pstr "number", pstr "1"), (pstr "hits", pstr "3")] []]]]]]]

/-- JaCoCo document carrying a bogus root summary attribute; its real line
elements count 2 total, 1 covered. -/
def w6root : XTree :=
  .node (pstr "report") [(pstr "lines-covered", pstr "999")]
    [.node (pstr "package") [(pstr "name", pstr "com/ex")]
      [.node (pstr "sourcefile") [(pstr "name", pstr "A.java")]
        [.node (pstr "line") [(pstr "nr", pstr "1"), (pstr "ci", pstr "2")] [],
         .node (pstr "line") [(pstr "nr", pstr "2"), (pstr "ci", pstr "0")] []]]]

/-- The file entry `_parse_cobertura_xml` produces for the class in
`w5root`. -/
def w5fileEntry : FileEntry :=
  { path := pstr "x.py"
    coverage_percentage := pyPct 1 1
    lines_covered := 1
    lines_total := 1
    functions_covered := none
    functions_total := none
    branches_covered := none
    branches_total := none
    line_coverage := [(pstr "1", true)] }

/-- The report `_parse_cobertura_xml` produces for `w5root`. -/
def w5report : Report :=
  { format := pstr "cobertura"
    overall :=
      { lines_covered := 5
        lines_total := 10
        branches_covered := some 0
        branches_total := some 0
        functions_covered := none
        functions_total := none
        coverage_percentage := pyPct 5 10 }
    files := [w5fileEntry] }

/-- The file entry `_parse_jacoco_xml` produces for the sourcefile in
`w6root`. -/
def w6fileEntry : FileEntry :=
  { path := pstr "com/ex/A.java"
    coverage_percentage := pyPct 1 2
    lines_covered := 1
    lines_total := 2
    functions_covered := none
    functions_total := none
    branches_covered := none
    branches_total := none
    line_coverage := [(pstr "1", true), (pstr "2", false)] }

/-- The report `_parse_jacoco_xml` produces for `w6root`. -/
def w6report : Report :=
  { format := pstr "jacoco"
    overall :=
      { lines_covered := 1
        lines_total := 2
        branches_covered := some 0
        branches_total := some 0
        functions_covered := none
        functions_total := none
        coverage_percentage := pyPct 1 2 }
    files := [w6fileEntry] }

/-- LCOV record in which a `DA:` line follows the `LH:` summary. -/
def cx7lines : List PStr :=
  [pstr "SF:a", pstr "DA:1,1", pstr "LH:5", pstr "DA:2,1", pstr "end_of_record"]

/-- Scan state with one freshly opened file record, used to instantiate the
amended `LH:`/`LF:` override theorem. -/
def w7state : LcovState :=
  { files := [], current := some (initLcovFile (pstr "a")), totalCovered := 0, totalTotal := 0 }

/-- Line-coverage map of the spec's gap-detector example. -/
def w8map : List (Int × Bool) := [(1, false), (2, false), (3, true), (5, false)]

/-- Stored file row `x.py` at 50% with 5 covered lines. -/
def w9row : DbFileCov := { coverage_percentage := 50, lines_covered := 5 }

/-- Report A of the spec's diff example: contains `x.py` at 50%. -/
def w9a : DbReport :=
  { coverage_percentage := 50, lines_covered := 5, lines_total := 10
    files := [(pstr "x.py", w9row)] }

/-- Report B of the spec's diff example: no files. -/
def w9b : DbReport :=
  { coverage_percentage := 0, lines_covered := 0, lines_total := 0, files := [] }

/-- Line classification used to state the LCOV record-shape hypotheses. -/
def lineIsDA (l : PStr) : Bool := pStartsWith (pTrim l) (pstr "DA:")

/-- Tests for an `LH:` record after stripping. -/
def lineIsLH (l : PStr) : Bool := pStartsWith (pTrim l) (pstr "LH:")

/-- Tests for an `LF:` record after stripping. -/
def lineIsLF (l : PStr) : Bool := pStartsWith (pTrim l) (pstr "LF:")

/-- Tests for an `SF:` record after stripping. -/
def lineIsSF (l : PStr) : Bool := pStartsWith (pTrim l) (pstr "SF:")

/-- Tests for an `end_of_record` marker after stripping. -/
def lineIsEOR (l : PStr) : Bool := pTrim l == pstr "end_of_record"

/-- The invariant the spec asserts of every file entry. -/
def fileInvariant (fe : FileEntry) : Prop :=
  0 ≤ fe.coverage_percentage ∧ fe.coverage_percentage ≤ 100
    ∧ 0 ≤ fe.lines_covered ∧ fe.lines_covered ≤ fe.lines_total

/-- The invariant the spec asserts of the overall entry. -/
def overallInvariant (o : Overall) : Prop :=
  0 ≤ o.coverage_percentage ∧ o.coverage_percentage ≤ 100
    ∧ 0 ≤ o.lines_covered ∧ o.lines_covered ≤ o.lines_total

/-! # Theorems -/

/-! ## Generic lemmas about the embedded effects and containers -/

theorem exBindOk {ε α β : Type} (a : α) (f : α → Except ε β) :
    (Except.ok a >>= f : Except ε β) = f a := rfl

theorem exBindErr {ε α β : Type} (e : ε) (f : α → Except ε β) :
    (Except.error e >>= f : Except ε β) = .error e := rfl

theorem exMapM_ok_length {α β : Type} {f : α → Except PyExn β} :
    ∀ {l : List α} {r : List β}, exMapM f l = .ok r → r.length = l.length := by
  intro l
  induction l with
  | nil => intro r h; simp [exMapM] at h; simp [← h]
  | cons a t ih =>
    intro r h
    rw [exMapM] at h
    cases hfa : f a with
    | error e => rw [hfa, exBindErr] at h; exact absurd h (by simp)
    | ok b =>
      rw [hfa, exBindOk] at h
      cases ht : exMapM f t with
      | error e => rw [ht, exBindErr] at h; exact absurd h (by simp)
      | ok bs =>
        rw [ht, exBindOk] at h
        cases h
        simp [ih ht]

/-! ## Bounds on the rounded percentage -/

theorem round2_nonneg {q : ℚ} (h : 0 ≤ q) : 0 ≤ round2 q := by
  unfold round2
  apply div_nonneg _ (by norm_num)
  have h2 : (0 : ℤ) ≤ ⌊q * 100 + 1 / 2⌋ := by
    apply Int.le_floor.mpr
    push_cast
    nlinarith
  exact_mod_cast h2

theorem round2_le_100 {q : ℚ} (h : q ≤ 100) : round2 q ≤ 100 := by
  unfold round2
  rw [div_le_iff₀ (by norm_num : (0:ℚ) < 100)]
  have h2 : ⌊q * 100 + 1 / 2⌋ ≤ 10000 := by
    have h3 : ⌊q * 100 + 1 / 2⌋ ≤ ⌊(100 : ℚ) * 100 + 1 / 2⌋ := by
      apply Int.floor_mono
      nlinarith
    have h4 : ⌊(100 : ℚ) * 100 + 1 / 2⌋ = 10000 := by
      norm_num
    omega
  calc ((⌊q * 100 + 1 / 2⌋ : ℤ) : ℚ) ≤ ((10000 : ℤ) : ℚ) := by exact_mod_cast h2
    _ = 100 * 100 := by norm_num

theorem pyPct_bounds {c t : Int} (h0 : 0 ≤ c) (hct : c ≤ t) (ht : 0 < t) :
    0 ≤ pyPct c t ∧ pyPct c t ≤ 100 := by
  have htq : (0 : ℚ) < (t : ℚ) := by exact_mod_cast ht
  have hcq : (0 : ℚ) ≤ (c : ℚ) := by exact_mod_cast h0
  have hctq : (c : ℚ) ≤ (t : ℚ) := by exact_mod_cast hct
  have hdiv0 : 0 ≤ (c : ℚ) / (t : ℚ) := div_nonneg hcq (le_of_lt htq)
  have hdiv1 : (c : ℚ) / (t : ℚ) ≤ 1 := (div_le_one htq).mpr hctq
  constructor
  · exact round2_nonneg (by nlinarith)
  · exact round2_le_100 (by nlinarith)

/-! ## C10: `parse_file` never lets an exception escape -/

/-- C10: for every input file object, `parse_file` finishes normally — every
exception its body can raise is a subclass of `Exception`, caught by the
`except Exception` handler — so the caller receives a report dictionary or
`None`, never an exception. -/
theorem parse_file_total (f : UploadFile) : ∃ r, parseFileOutcome f = .ok r := by
  unfold parseFileOutcome
  cases h : parseFileE f with
  | ok r => exact ⟨r, rfl⟩
  | error e => exact ⟨none, by simp [pyExnCaught]⟩

/-! ## C3: empty or undecodable input -/

/-- C3 counterexample: the claim says empty content always fails with a
decode-style error, but the empty upload `cx3file` (empty text, LCOV filename
hint) is parsed into a report — an empty `lcov` report, not a failure. -/
theorem empty_content_report_counterexample :
    ((parseFile cx3file).map fun r => (r.format, r.files.length, r.overall.lines_total))
        = some (pstr "lcov", 0, 0)
      ∧ (parseFile cx3file).isSome = true := by
  exact ⟨by decide, by decide⟩

/-- C3 amended: content that cannot be decoded as UTF-8 makes `parse_file`
fail (return `None`) regardless of the filename hint; empty content, however,
is not rejected — unless routed to the XML parser it produces an empty LCOV
report. -/
theorem decode_failure_returns_none (f : UploadFile) (h : f.decodeOk = false) :
    parseFile f = none := by
  simp [parseFile, parseFileOutcome, parseFileE, h, pyExnCaught]

theorem decode_failure_returns_none_witness :
    cx3badBytes.decodeOk = false ∧ parseFile cx3badBytes = none :=
  ⟨rfl, decode_failure_returns_none cx3badBytes rfl⟩

/-! ## C4: malformed XML -/

/-- C4 counterexample: the claim says malformed XML never yields a
silently-empty report, but the truncated-tag upload `cx4file` (content
`<foo`, no sniffer marker, no extension hint) falls through the XML attempt
into the LCOV fallback, which returns an empty `lcov` report. -/
theorem malformed_xml_empty_report_counterexample :
    ((parseFile cx4file).map fun r =>
        (r.format, r.files.length, r.overall.lines_total, r.overall.lines_covered))
        = some (pstr "lcov", 0, 0, 0)
      ∧ (parseFile cx4file).isSome = true := by
  exact ⟨by decide, by decide⟩

/-- C4 amended: when the sniffer routes the input to the XML parser (filename
ending `.xml`, or content containing `<coverage` or `<report`), malformed XML
(`ET.fromstring` raising `ParseError`, the `.error` case) makes `parse_file`
return `None`; on the unhinted fallback path the LCOV parser may instead
produce an empty report.  No parser-internal exception reaches the caller
(`parse_file_total`). -/
theorem malformed_xml_routed_returns_none (f : UploadFile)
    (hd : f.decodeOk = true)
    (hroute : (pEndsWith (pToLower f.filename) (pstr ".xml")
        || pContainsSub f.text (pstr "<coverage")
        || pContainsSub f.text (pstr "<report")) = true)
    (hxml : f.xml = .error ()) :
    parseFile f = none := by
  simp [parseFile, parseFileOutcome, parseFileE, hd, hroute, hxml, parseXmlCoverage]

theorem malformed_xml_routed_returns_none_witness :
    (pEndsWith (pToLower cx4xmlFile.filename) (pstr ".xml")
        || pContainsSub cx4xmlFile.text (pstr "<coverage")
        || pContainsSub cx4xmlFile.text (pstr "<report")) = true
      ∧ parseFile cx4xmlFile = none :=
  ⟨by decide, malformed_xml_routed_returns_none cx4xmlFile rfl (by decide) rfl⟩

/-! ## C2: LCOV totals skip `SF:`-flushed files -/

/-- C2 (code bug): on `cx2content` the first file record is flushed by the
second `SF:` line; both files appear in the `files` list (each 1 of 1), but
the overall totals count only the file flushed by `end_of_record`: overall is
1 of 1 while the sum over the files list is 2 of 2.  The spec says overall
totals are the sum over all flushed files. -/
theorem lcov_sf_flush_totals_divergence :
    ((parseLcovText cx2content).map fun r =>
        (r.overall.lines_total, r.overall.lines_covered,
         sumTotal r.files, sumCovered r.files))
      = some (1, 1, 2, 2)
    ∧ ((parseLcovText cx2content).map fun r =>
        r.files.map (fun fe => (fe.path, fe.lines_covered, fe.lines_total)))
      = some [(pstr "a.py", 1, 1), (pstr "b.py", 1, 1)] := by
  exact ⟨by decide, by decide⟩

/-! ## Inversion lemmas for the XML parsers -/

theorem coberturaFileEntry_ok_some {c : XTree} {fe : FileEntry}
    (h : coberturaFileEntry c = .ok (some fe)) :
    ∃ hs, exMapM (fun l => pyIntAttr l (pstr "hits")) (findAllTag c (pstr "line")) = .ok hs
      ∧ fe.lines_covered = ((hs.filter (fun v => decide (v > 0))).length : Int)
      ∧ fe.lines_total = ((findAllTag c (pstr "line")).length : Int)
      ∧ fe.coverage_percentage
          = (if fe.lines_total > 0 then pyPct fe.lines_covered fe.lines_total else 0) := by
  simp only [coberturaFileEntry] at h
  split at h
  · exact absurd h (by simp)
  · cases hhs : exMapM (fun l => pyIntAttr l (pstr "hits")) (findAllTag c (pstr "line")) with
    | error e => rw [hhs, exBindErr] at h; exact absurd h (by simp)
    | ok hs =>
      rw [hhs, exBindOk] at h
      cases hlc : buildLineCov (pstr "number") (pstr "hits") (findAllTag c (pstr "line")) with
      | error e => rw [hlc, exBindErr] at h; exact absurd h (by simp)
      | ok lc =>
        rw [hlc, exBindOk] at h
        cases h
        exact ⟨hs, rfl, rfl, rfl, rfl⟩

theorem jacocoFileEntry_ok_some {pname : PStr} {sf : XTree} {fe : FileEntry}
    (h : jacocoFileEntry pname sf = .ok (some fe)) :
    ∃ cs, exMapM (fun l => pyIntAttr l (pstr "ci")) (findAllTag sf (pstr "line")) = .ok cs
      ∧ fe.lines_covered = ((cs.filter (fun v => decide (v > 0))).length : Int)
      ∧ fe.lines_total = ((findAllTag sf (pstr "line")).length : Int)
      ∧ fe.coverage_percentage
          = (if fe.lines_total > 0 then pyPct fe.lines_covered fe.lines_total else 0) := by
  simp only [jacocoFileEntry] at h
  split at h
  · exact absurd h (by simp)
  · cases hcs : exMapM (fun l => pyIntAttr l (pstr "ci")) (findAllTag sf (pstr "line")) with
    | error e => rw [hcs, exBindErr] at h; exact absurd h (by simp)
    | ok cs =>
      rw [hcs, exBindOk] at h
      cases hlc : buildLineCov (pstr "nr") (pstr "ci") (findAllTag sf (pstr "line")) with
      | error e => rw [hlc, exBindErr] at h; exact absurd h (by simp)
      | ok lc =>
        rw [hlc, exBindOk] at h
        cases h
        exact ⟨cs, rfl, rfl, rfl, rfl⟩

theorem parseCoberturaXml_inv {root : XTree} {r : Report}
    (h : parseCoberturaXml root = .ok r) :
    pyIntAttr root (pstr "lines-valid") = .ok r.overall.lines_total
    ∧ pyIntAttr root (pstr "lines-covered") = .ok r.overall.lines_covered
    ∧ (∃ bv, pyIntAttr root (pstr "branches-valid") = .ok bv
        ∧ r.overall.branches_total = some bv)
    ∧ (∃ bc, pyIntAttr root (pstr "branches-covered") = .ok bc
        ∧ r.overall.branches_covered = some bc)
    ∧ coberturaFilesList
        ((findAllTag root (pstr "package")).flatMap (fun p => findAllTag p (pstr "class")))
        = .ok r.files
    ∧ r.overall.coverage_percentage
        = (if r.overall.lines_total > 0
            then pyPct r.overall.lines_covered r.overall.lines_total else 0)
    ∧ r.format = pstr "cobertura" := by
  simp only [parseCoberturaXml] at h
  cases h1 : pyIntAttr root (pstr "lines-valid") with
  | error e => rw [h1, exBindErr] at h; exact absurd h (by simp)
  | ok lv =>
    rw [h1, exBindOk] at h
    cases h2 : pyIntAttr root (pstr "lines-covered") with
    | error e => rw [h2, exBindErr] at h; exact absurd h (by simp)
    | ok lc =>
      rw [h2, exBindOk] at h
      cases h3 : pyIntAttr root (pstr "branches-valid") with
      | error e => rw [h3, exBindErr] at h; exact absurd h (by simp)
      | ok bv =>
        rw [h3, exBindOk] at h
        cases h4 : pyIntAttr root (pstr "branches-covered") with
        | error e => rw [h4, exBindErr] at h; exact absurd h (by simp)
        | ok bc =>
          rw [h4, exBindOk] at h
          cases h5 : coberturaFilesList
              ((findAllTag root (pstr "package")).flatMap
                (fun p => findAllTag p (pstr "class"))) with
          | error e => rw [h5, exBindErr] at h; exact absurd h (by simp)
          | ok files =>
            rw [h5, exBindOk] at h
            cases h
            exact ⟨rfl, rfl, ⟨bv, rfl, rfl⟩, ⟨bc, rfl, rfl⟩, rfl, rfl, rfl⟩

theorem parseJacocoXml_inv {root : XTree} {r : Report}
    (h : parseJacocoXml root = .ok r) :
    jacocoFilesList (jacocoPairs root) = .ok r.files
    ∧ r.overall.lines_covered = sumCovered r.files
    ∧ r.overall.lines_total = sumTotal r.files
    ∧ r.overall.coverage_percentage
        = (if r.overall.lines_total > 0
            then pyPct r.overall.lines_covered r.overall.lines_total else 0)
    ∧ r.format = pstr "jacoco" := by
  simp only [parseJacocoXml] at h
  cases h1 : jacocoFilesList (jacocoPairs root) with
  | error e => rw [h1, exBindErr] at h; exact absurd h (by simp)
  | ok files =>
    rw [h1, exBindOk] at h
    cases h
    exact ⟨rfl, rfl, rfl, rfl, rfl⟩

theorem coberturaFilesList_mem {cs : List XTree} {fs : List FileEntry}
    (h : coberturaFilesList cs = .ok fs) :
    ∀ fe ∈ fs, ∃ c ∈ cs, coberturaFileEntry c = .ok (some fe) := by
  induction cs generalizing fs with
  | nil =>
    simp only [coberturaFilesList] at h
    cases h
    intro fe hfe
    exact absurd hfe (by simp)
  | cons c rest ih =>
    simp only [coberturaFilesList] at h
    cases hofe : coberturaFileEntry c with
    | error e => rw [hofe, exBindErr] at h; exact absurd h (by simp)
    | ok ofe =>
      rw [hofe, exBindOk] at h
      cases hrest : coberturaFilesList rest with
      | error e => rw [hrest, exBindErr] at h; exact absurd h (by simp)
      | ok fs' =>
        rw [hrest, exBindOk] at h
        cases ofe with
        | none =>
          simp only at h
          cases h
          intro fe hfe
          obtain ⟨c', hc', he⟩ := ih hrest fe hfe
          exact ⟨c', by simp [hc'], he⟩
        | some fe' =>
          simp only at h
          cases h
          intro fe hfe
          rcases List.mem_cons.mp hfe with hfe | hfe
          · exact ⟨c, by simp, by rw [hofe, hfe]⟩
          · obtain ⟨c', hc', he⟩ := ih hrest fe hfe
            exact ⟨c', by simp [hc'], he⟩

theorem jacocoFilesList_mem {ps : List (PStr × XTree)} {fs : List FileEntry}
    (h : jacocoFilesList ps = .ok fs) :
    ∀ fe ∈ fs, ∃ pr ∈ ps, jacocoFileEntry pr.1 pr.2 = .ok (some fe) := by
  induction ps generalizing fs with
  | nil =>
    simp only [jacocoFilesList] at h
    cases h
    intro fe hfe
    exact absurd hfe (by simp)
  | cons pr rest ih =>
    simp only [jacocoFilesList] at h
    cases hofe : jacocoFileEntry pr.1 pr.2 with
    | error e => rw [hofe, exBindErr] at h; exact absurd h (by simp)
    | ok ofe =>
      rw [hofe, exBindOk] at h
      cases hrest : jacocoFilesList rest with
      | error e => rw [hrest, exBindErr] at h; exact absurd h (by simp)
      | ok fs' =>
        rw [hrest, exBindOk] at h
        cases ofe with
        | none =>
          simp only at h
          cases h
          intro fe hfe
          obtain ⟨pr', hpr', he⟩ := ih hrest fe hfe
          exact ⟨pr', by simp [hpr'], he⟩
        | some fe' =>
          simp only at h
          cases h
          intro fe hfe
          rcases List.mem_cons.mp hfe with hfe | hfe
          · exact ⟨pr, by simp, by rw [hofe, hfe]⟩
          · obtain ⟨pr', hpr', he⟩ := ih hrest fe hfe
            exact ⟨pr', by simp [hpr'], he⟩

/-! ## C1: the coverage invariant -/

theorem coberturaFileEntry_invariant {c : XTree} {fe : FileEntry}
    (h : coberturaFileEntry c = .ok (some fe)) : fileInvariant fe := by
  obtain ⟨hs, hhs, hc, ht, hp⟩ := coberturaFileEntry_ok_some h
  have hlen : hs.length = (findAllTag c (pstr "line")).length := exMapM_ok_length hhs
  have h0 : 0 ≤ fe.lines_covered := by rw [hc]; exact_mod_cast Nat.zero_le _
  have hct : fe.lines_covered ≤ fe.lines_total := by
    rw [hc, ht, ← hlen]
    exact_mod_cast List.length_filter_le _ _
  refine ⟨?_, ?_, h0, hct⟩
  · rw [hp]
    by_cases hpos : fe.lines_total > 0
    · rw [if_pos hpos]; exact (pyPct_bounds h0 hct hpos).1
    · rw [if_neg hpos]
  · rw [hp]
    by_cases hpos : fe.lines_total > 0
    · rw [if_pos hpos]; exact (pyPct_bounds h0 hct hpos).2
    · rw [if_neg hpos]; norm_num

theorem jacocoFileEntry_invariant {pname : PStr} {sf : XTree} {fe : FileEntry}
    (h : jacocoFileEntry pname sf = .ok (some fe)) : fileInvariant fe := by
  obtain ⟨cs, hcs, hc, ht, hp⟩ := jacocoFileEntry_ok_some h
  have hlen : cs.length = (findAllTag sf (pstr "line")).length := exMapM_ok_length hcs
  have h0 : 0 ≤ fe.lines_covered := by rw [hc]; exact_mod_cast Nat.zero_le _
  have hct : fe.lines_covered ≤ fe.lines_total := by
    rw [hc, ht, ← hlen]
    exact_mod_cast List.length_filter_le _ _
  refine ⟨?_, ?_, h0, hct⟩
  · rw [hp]
    by_cases hpos : fe.lines_total > 0
    · rw [if_pos hpos]; exact (pyPct_bounds h0 hct hpos).1
    · rw [if_neg hpos]
  · rw [hp]
    by_cases hpos : fe.lines_total > 0
    · rw [if_pos hpos]; exact (pyPct_bounds h0 hct hpos).2
    · rw [if_neg hpos]; norm_num

theorem sumFold_bounds :
    ∀ {fs : List FileEntry},
      (∀ fe ∈ fs, 0 ≤ fe.lines_covered ∧ fe.lines_covered ≤ fe.lines_total) →
      ∀ a b : Int, 0 ≤ a → a ≤ b →
        0 ≤ fs.foldl (fun x fe => x + fe.lines_covered) a
        ∧ fs.foldl (fun x fe => x + fe.lines_covered) a
            ≤ fs.foldl (fun x fe => x + fe.lines_total) b := by
  intro fs
  induction fs with
  | nil => intro _ a b ha hab; exact ⟨ha, hab⟩
  | cons fe t ih =>
    intro h a b ha hab
    simp only [List.foldl_cons]
    obtain ⟨h1, h2⟩ := h fe (by simp)
    exact ih (fun fe' hfe' => h fe' (by simp [hfe'])) _ _ (by linarith) (by linarith)

/-- C1 corrected: the invariant holds for every file entry the Cobertura and
JaCoCo parsers produce (their counts are obtained by counting `line`
elements), and for the JaCoCo overall entry (the sum of those counts).  It
does not hold for entries whose counts are copied verbatim from the input —
the Cobertura overall entry (root attributes, see
`report_invariant_counterexample`) and LCOV entries under `LH:`/`LF:`
overrides. -/
theorem report_invariant_amended :
    (∀ root r, parseCoberturaXml root = .ok r → ∀ fe ∈ r.files, fileInvariant fe)
    ∧ (∀ root r, parseJacocoXml root = .ok r →
        (∀ fe ∈ r.files, fileInvariant fe) ∧ overallInvariant r.overall) := by
  constructor
  · intro root r h fe hfe
    obtain ⟨_, _, _, _, hfiles, _, _⟩ := parseCoberturaXml_inv h
    obtain ⟨c, _, hce⟩ := coberturaFilesList_mem hfiles fe hfe
    exact coberturaFileEntry_invariant hce
  · intro root r h
    obtain ⟨hfiles, hcv, htt, hpct, _⟩ := parseJacocoXml_inv h
    have hinv : ∀ fe ∈ r.files, fileInvariant fe := by
      intro fe hfe
      obtain ⟨pr, _, he⟩ := jacocoFilesList_mem hfiles fe hfe
      exact jacocoFileEntry_invariant he
    refine ⟨hinv, ?_⟩
    have hb := sumFold_bounds
      (fun fe hfe => ⟨(hinv fe hfe).2.2.1, (hinv fe hfe).2.2.2⟩) 0 0 le_rfl le_rfl
    have h0 : 0 ≤ r.overall.lines_covered := by rw [hcv]; exact hb.1
    have hct : r.overall.lines_covered ≤ r.overall.lines_total := by
      rw [hcv, htt]; exact hb.2
    refine ⟨?_, ?_, h0, hct⟩
    · rw [hpct]
      by_cases hpos : r.overall.lines_total > 0
      · rw [if_pos hpos]; exact (pyPct_bounds h0 hct hpos).1
      · rw [if_neg hpos]
    · rw [hpct]
      by_cases hpos : r.overall.lines_total > 0
      · rw [if_pos hpos]; exact (pyPct_bounds h0 hct hpos).2
      · rw [if_neg hpos]; norm_num

theorem report_invariant_amended_witness :
    parseCoberturaXml w5root = .ok w5report ∧ fileInvariant w5fileEntry := by
  have h : parseCoberturaXml w5root = .ok w5report := rfl
  refine ⟨h, report_invariant_amended.1 w5root w5report h w5fileEntry ?_⟩
  simp [w5report]

/-! ## C5: Cobertura overall totals are the root attributes -/

/-- C5: whenever `_parse_cobertura_xml` succeeds, the overall `lines_total`,
`lines_covered`, `branches_total` and `branches_covered` are exactly the
values of the root attributes `lines-valid`, `lines-covered`,
`branches-valid`, `branches-covered` as read by `int(attrib.get(k, 0))`
(so `0` when the attribute is absent — see `pyIntAttr`); the per-file walk
never feeds back into them.  The witness exercises a document whose per-file
sums (1 of 1) disagree with the root attributes (5 of 10). -/
theorem cobertura_overall_verbatim (root : XTree) (r : Report)
    (h : parseCoberturaXml root = .ok r) :
    pyIntAttr root (pstr "lines-valid") = .ok r.overall.lines_total
    ∧ pyIntAttr root (pstr "lines-covered") = .ok r.overall.lines_covered
    ∧ (∃ bv, pyIntAttr root (pstr "branches-valid") = .ok bv
        ∧ r.overall.branches_total = some bv)
    ∧ (∃ bc, pyIntAttr root (pstr "branches-covered") = .ok bc
        ∧ r.overall.branches_covered = some bc) := by
  obtain ⟨h1, h2, h3, h4, _⟩ := parseCoberturaXml_inv h
  exact ⟨h1, h2, h3, h4⟩

theorem cobertura_overall_verbatim_witness :
    parseCoberturaXml w5root = .ok w5report
      ∧ pyIntAttr w5root (pstr "lines-valid") = .ok w5report.overall.lines_total
      ∧ pyIntAttr w5root (pstr "lines-covered") = .ok w5report.overall.lines_covered
      ∧ w5report.overall.lines_total = 10
      ∧ w5report.overall.lines_covered = 5
      ∧ sumTotal w5report.files = 1
      ∧ sumCovered w5report.files = 1 := by
  have h : parseCoberturaXml w5root = .ok w5report := rfl
  obtain ⟨h1, h2, _⟩ := cobertura_overall_verbatim w5root w5report h
  exact ⟨h, h1, h2, by decide, by decide, by decide, by decide⟩

/-! ## C6: JaCoCo overall totals are recomputed by summation -/

theorem foldl_add_shift (g : FileEntry → Int) :
    ∀ (fs : List FileEntry) (a : Int),
      fs.foldl (fun x fe => x + g fe) a = a + fs.foldl (fun x fe => x + g fe) 0 := by
  intro fs
  induction fs with
  | nil => intro a; simp
  | cons fe t ih =>
    intro a
    simp only [List.foldl_cons]
    rw [ih (a + g fe), ih (0 + g fe)]
    omega

theorem sumCovered_cons (fe : FileEntry) (fs : List FileEntry) :
    sumCovered (fe :: fs) = fe.lines_covered + sumCovered fs := by
  unfold sumCovered
  simp only [List.foldl_cons]
  rw [foldl_add_shift (fun fe => fe.lines_covered) fs (0 + fe.lines_covered)]
  omega

theorem sumTotal_cons (fe : FileEntry) (fs : List FileEntry) :
    sumTotal (fe :: fs) = fe.lines_total + sumTotal fs := by
  unfold sumTotal
  simp only [List.foldl_cons]
  rw [foldl_add_shift (fun fe => fe.lines_total) fs (0 + fe.lines_total)]
  omega

theorem exMapM_ci_count :
    ∀ {lines : List XTree} {cs : List Int},
      exMapM (fun l => pyIntAttr l (pstr "ci")) lines = .ok cs →
      (cs.filter (fun v => decide (v > 0))).length
        = (lines.filter specLineCiPos).length := by
  intro lines
  induction lines with
  | nil =>
    intro cs h
    simp only [exMapM] at h
    cases h
    rfl
  | cons l t ih =>
    intro cs h
    simp only [exMapM] at h
    cases hl : pyIntAttr l (pstr "ci") with
    | error e => rw [hl, exBindErr] at h; exact absurd h (by simp)
    | ok v =>
      rw [hl, exBindOk] at h
      cases ht : exMapM (fun l => pyIntAttr l (pstr "ci")) t with
      | error e => rw [ht, exBindErr] at h; exact absurd h (by simp)
      | ok vs =>
        rw [ht, exBindOk] at h
        cases h
        have hpos : specLineCiPos l = decide (v > 0) := by
          unfold pyIntAttr at hl
          unfold specLineCiPos
          cases ha : attrGet l (pstr "ci") with
          | none =>
            rw [ha] at hl
            cases hl
            rfl
          | some s =>
            rw [ha] at hl
            replace hl : intOfStr s = Except.ok v := hl
            show ciStrPos s = decide (v > 0)
            unfold intOfStr at hl
            unfold ciStrPos
            cases hv : pToInt s with
            | none => rw [hv] at hl; exact absurd hl (by simp)
            | some w =>
              rw [hv] at hl
              cases hl
              rfl
        cases hvp : decide (v > 0) <;>
          simp [List.filter_cons, hpos, hvp, ih ht]

theorem jacocoFileEntry_counts {pname : PStr} {sf : XTree} {fe : FileEntry}
    (h : jacocoFileEntry pname sf = .ok (some fe)) :
    fe.lines_total = ((findAllTag sf (pstr "line")).length : Int)
    ∧ fe.lines_covered
        = (((findAllTag sf (pstr "line")).filter specLineCiPos).length : Int) := by
  obtain ⟨cs, hcs, hc, ht, _⟩ := jacocoFileEntry_ok_some h
  refine ⟨ht, ?_⟩
  rw [hc, exMapM_ci_count hcs]

theorem jacocoFileEntry_some_of_name {pname : PStr} {sf : XTree}
    {ofe : Option FileEntry}
    (h : jacocoFileEntry pname sf = .ok ofe)
    (hname : (attrGet sf (pstr "name")).getD [] ≠ []) : ∃ fe, ofe = some fe := by
  simp only [jacocoFileEntry] at h
  rw [if_neg hname] at h
  cases hcs : exMapM (fun l => pyIntAttr l (pstr "ci")) (findAllTag sf (pstr "line")) with
  | error e => rw [hcs, exBindErr] at h; exact absurd h (by simp)
  | ok cs =>
    rw [hcs, exBindOk] at h
    cases hlc : buildLineCov (pstr "nr") (pstr "ci") (findAllTag sf (pstr "line")) with
    | error e => rw [hlc, exBindErr] at h; exact absurd h (by simp)
    | ok lc =>
      rw [hlc, exBindOk] at h
      cases h
      exact ⟨_, rfl⟩

theorem jacocoFilesList_sums :
    ∀ {ps : List (PStr × XTree)} {fs : List FileEntry},
      jacocoFilesList ps = .ok fs →
      (∀ pr ∈ ps, (attrGet pr.2 (pstr "name")).getD [] ≠ []) →
      sumTotal fs = ((ps.flatMap (fun pr => findAllTag pr.2 (pstr "line"))).length : Int)
      ∧ sumCovered fs
          = (((ps.flatMap (fun pr => findAllTag pr.2 (pstr "line"))).filter
              specLineCiPos).length : Int) := by
  intro ps
  induction ps with
  | nil =>
    intro fs h _
    simp only [jacocoFilesList] at h
    cases h
    simp [sumTotal, sumCovered]
  | cons pr rest ih =>
    intro fs h hname
    simp only [jacocoFilesList] at h
    cases hofe : jacocoFileEntry pr.1 pr.2 with
    | error e => rw [hofe, exBindErr] at h; exact absurd h (by simp)
    | ok ofe =>
      rw [hofe, exBindOk] at h
      cases hrest : jacocoFilesList rest with
      | error e => rw [hrest, exBindErr] at h; exact absurd h (by simp)
      | ok fs' =>
        rw [hrest, exBindOk] at h
        obtain ⟨fe, rfl⟩ := jacocoFileEntry_some_of_name hofe (hname pr (by simp))
        simp only at h
        cases h
        obtain ⟨hT, hC⟩ := ih hrest (fun pr' hpr' => hname pr' (by simp [hpr']))
        obtain ⟨hfeT, hfeC⟩ := jacocoFileEntry_counts hofe
        constructor
        · rw [sumTotal_cons, hT, hfeT]
          simp only [List.flatMap_cons, List.length_append]
          push_cast
          ring
        · rw [sumCovered_cons, hC, hfeC]
          simp only [List.flatMap_cons, List.filter_append, List.length_append]
          push_cast
          ring

theorem map_pair_flat (nm : PStr) (sfs : List XTree) :
    ((sfs.map (fun sf => (nm, sf))).flatMap (fun pr => findAllTag pr.2 (pstr "line")))
      = sfs.flatMap (fun sf => findAllTag sf (pstr "line")) := by
  induction sfs with
  | nil => rfl
  | cons sf t ih => simp only [List.map_cons, List.flatMap_cons, ih]

theorem pairs_flat_aux (pkgs : List XTree) :
    (pkgs.flatMap (fun p => (findAllTag p (pstr "sourcefile")).map
        (fun sf => ((attrGet p (pstr "name")).getD [], sf)))).flatMap
      (fun pr => findAllTag pr.2 (pstr "line"))
    = pkgs.flatMap (fun p => (findAllTag p (pstr "sourcefile")).flatMap
        (fun sf => findAllTag sf (pstr "line"))) := by
  induction pkgs with
  | nil => rfl
  | cons p t ih =>
    simp only [List.flatMap_cons, List.flatMap_append, ih, map_pair_flat]

theorem jacocoPairs_flat (root : XTree) :
    (jacocoPairs root).flatMap (fun pr => findAllTag pr.2 (pstr "line"))
      = specJacocoLineElems root := by
  unfold jacocoPairs specJacocoLineElems
  exact pairs_flat_aux _

/-- C6: whenever `_parse_jacoco_xml` succeeds on a document whose
`sourcefile` elements all carry a nonempty `name` attribute (as the JaCoCo
DTD requires of well-formed reports), the overall `lines_total` is the count
of `line` elements reached by the `package → sourcefile` walk and
`lines_covered` is the count of those whose `ci` attribute is positive; both
equal the sums over the produced file entries.  No root attribute enters the
computation — the witness document carries a bogus root summary attribute. -/
theorem jacoco_overall_recomputed (root : XTree) (r : Report)
    (h : parseJacocoXml root = .ok r)
    (hname : ∀ pr ∈ jacocoPairs root, (attrGet pr.2 (pstr "name")).getD [] ≠ []) :
    r.overall.lines_total = ((specJacocoLineElems root).length : Int)
    ∧ r.overall.lines_covered
        = (((specJacocoLineElems root).filter specLineCiPos).length : Int)
    ∧ r.overall.lines_total = sumTotal r.files
    ∧ r.overall.lines_covered = sumCovered r.files := by
  obtain ⟨hfiles, hcv, htt, _, _⟩ := parseJacocoXml_inv h
  obtain ⟨hT, hC⟩ := jacocoFilesList_sums hfiles hname
  rw [← jacocoPairs_flat root]
  exact ⟨by rw [htt, hT], by rw [hcv, hC], htt, hcv⟩

theorem jacoco_overall_recomputed_witness :
    parseJacocoXml w6root = .ok w6report
      ∧ ((jacocoPairs w6root).all
          (fun pr => !((attrGet pr.2 (pstr "name")).getD []).isEmpty)) = true
      ∧ w6report.overall.lines_total = 2
      ∧ w6report.overall.lines_covered = 1
      ∧ ((specJacocoLineElems w6root).length : Int) = 2
      ∧ (((specJacocoLineElems w6root).filter specLineCiPos).length : Int) = 1
      ∧ attrGet w6root (pstr "lines-covered") = some (pstr "999") := by
  have h : parseJacocoXml w6root = .ok w6report := rfl
  have hname : ∀ pr ∈ jacocoPairs w6root,
      (attrGet pr.2 (pstr "name")).getD [] ≠ [] := by decide
  obtain ⟨h1, h2, _⟩ := jacoco_overall_recomputed w6root w6report h hname
  refine ⟨h, by decide, by decide, by decide, ?_, ?_, rfl⟩
  · rw [← h1]; decide
  · rw [← h2]; decide

/-- C1 counterexample: `parse_file` on the Cobertura upload `cx1file`, whose
root attributes claim 2 covered of 1 valid lines, returns a report whose
overall entry has `lines_covered > lines_total` and
`coverage_percentage = 200 > 100` — the parser copies the root attributes
without validation. -/
theorem report_invariant_counterexample :
    parseFile cx1file = some cx1report
      ∧ cx1report.overall.lines_total < cx1report.overall.lines_covered
      ∧ 100 < cx1report.overall.coverage_percentage := by
  refine ⟨rfl, by decide, ?_⟩
  show (100 : ℚ) < pyPct 2 1
  unfold pyPct round2
  norm_num

/-! ## C7: LCOV `LH:`/`LF:` overrides -/

theorem isPrefixOf_append (p d : PStr) : p.isPrefixOf (p ++ d) = true := by
  induction p with
  | nil => cases d <;> rfl
  | cons a as ih => simp [List.cons_append, List.isPrefixOf, ih]

theorem lcovStep_lh {st : LcovState} {cur : FileEntry} {lh d : PStr} {n : Int}
    (hcur : st.current = some cur) (hline : pTrim lh = pstr "LH:" ++ d)
    (hd : pToInt d = some n) :
    lcovStep st lh = .ok { st with current := some { cur with lines_covered := n } } := by
  have hSF : pStartsWith (pstr "LH:" ++ d) (pstr "SF:") = false := rfl
  have hDA : pStartsWith (pstr "LH:" ++ d) (pstr "DA:") = false := rfl
  have hLH : pStartsWith (pstr "LH:" ++ d) (pstr "LH:") = true :=
    isPrefixOf_append (pstr "LH:") d
  have hdrop : pDrop (pstr "LH:" ++ d) 3 = d := rfl
  simp only [lcovStep, hline, hcur, hSF, hDA, hLH, hdrop, hd]
  simp

theorem lcovStep_lf {st : LcovState} {cur : FileEntry} {lf d : PStr} {n : Int}
    (hcur : st.current = some cur) (hline : pTrim lf = pstr "LF:" ++ d)
    (hd : pToInt d = some n) :
    lcovStep st lf = .ok { st with current := some { cur with lines_total := n } } := by
  have hSF : pStartsWith (pstr "LF:" ++ d) (pstr "SF:") = false := rfl
  have hDA : pStartsWith (pstr "LF:" ++ d) (pstr "DA:") = false := rfl
  have hLH : pStartsWith (pstr "LF:" ++ d) (pstr "LH:") = false := rfl
  have hLF : pStartsWith (pstr "LF:" ++ d) (pstr "LF:") = true :=
    isPrefixOf_append (pstr "LF:") d
  have hdrop : pDrop (pstr "LF:" ++ d) 3 = d := rfl
  simp only [lcovStep, hline, hcur, hSF, hDA, hLH, hLF, hdrop, hd]
  simp

theorem lcovStep_covered_invariant {st st'' : LcovState} {cur : FileEntry} {l : PStr}
    (hcur : st.current = some cur)
    (hDA : lineIsDA l = false) (hLH : lineIsLH l = false)
    (hSF : lineIsSF l = false) (hEOR : lineIsEOR l = false)
    (h : lcovStep st l = .ok st'') :
    ∃ cur'', st''.current = some cur''
      ∧ cur''.lines_covered = cur.lines_covered := by
  unfold lineIsDA at hDA
  unfold lineIsLH at hLH
  unfold lineIsSF at hSF
  unfold lineIsEOR at hEOR
  simp only [lcovStep, hcur, hDA, hLH, hSF, hEOR] at h
  simp only [Bool.false_eq_true, if_false] at h
  split at h
  · split at h
    · exact absurd h (by simp)
    · cases h; exact ⟨_, rfl, rfl⟩
  · split at h
    · split at h
      · exact absurd h (by simp)
      · cases h; exact ⟨_, rfl, rfl⟩
    · split at h
      · split at h
        · exact absurd h (by simp)
        · cases h; exact ⟨_, rfl, rfl⟩
      · split at h
        · split at h
          · exact absurd h (by simp)
          · cases h; exact ⟨_, rfl, rfl⟩
        · split at h
          · split at h
            · exact absurd h (by simp)
            · cases h; exact ⟨_, rfl, rfl⟩
          · cases h; exact ⟨cur, hcur, rfl⟩

theorem lcovStep_total_invariant {st st'' : LcovState} {cur : FileEntry} {l : PStr}
    (hcur : st.current = some cur)
    (hDA : lineIsDA l = false) (hLF : lineIsLF l = false)
    (hSF : lineIsSF l = false) (hEOR : lineIsEOR l = false)
    (h : lcovStep st l = .ok st'') :
    ∃ cur'', st''.current = some cur''
      ∧ cur''.lines_total = cur.lines_total := by
  unfold lineIsDA at hDA
  unfold lineIsLF at hLF
  unfold lineIsSF at hSF
  unfold lineIsEOR at hEOR
  simp only [lcovStep, hcur, hDA, hLF, hSF, hEOR] at h
  simp only [Bool.false_eq_true, if_false] at h
  split at h
  · split at h
    · exact absurd h (by simp)
    · cases h; exact ⟨_, rfl, rfl⟩
  · split at h
    · split at h
      · exact absurd h (by simp)
      · cases h; exact ⟨_, rfl, rfl⟩
    · split at h
      · split at h
        · exact absurd h (by simp)
        · cases h; exact ⟨_, rfl, rfl⟩
      · split at h
        · split at h
          · exact absurd h (by simp)
          · cases h; exact ⟨_, rfl, rfl⟩
        · split at h
          · split at h
            · exact absurd h (by simp)
            · cases h; exact ⟨_, rfl, rfl⟩
          · cases h; exact ⟨cur, hcur, rfl⟩

theorem foldl_covered_invariant :
    ∀ {rest : List PStr} {st st' : LcovState} {cur : FileEntry},
      st.current = some cur →
      (∀ l ∈ rest, lineIsDA l = false ∧ lineIsLH l = false
        ∧ lineIsSF l = false ∧ lineIsEOR l = false) →
      List.foldlM lcovStep st rest = .ok st' →
      ∃ cur', st'.current = some cur'
        ∧ cur'.lines_covered = cur.lines_covered := by
  intro rest
  induction rest with
  | nil =>
    intro st st' cur hcur _ h
    simp only [List.foldlM_nil] at h
    cases h
    exact ⟨cur, hcur, rfl⟩
  | cons l t ih =>
    intro st st' cur hcur hl h
    simp only [List.foldlM_cons] at h
    cases hstep : lcovStep st l with
    | error e => rw [hstep, exBindErr] at h; exact absurd h (by simp)
    | ok st₁ =>
      rw [hstep, exBindOk] at h
      obtain ⟨hDA, hLH, hSF, hEOR⟩ := hl l (by simp)
      obtain ⟨cur₁, hcur₁, hc₁⟩ :=
        lcovStep_covered_invariant hcur hDA hLH hSF hEOR hstep
      obtain ⟨cur', hcur', hc'⟩ :=
        ih hcur₁ (fun l' hl' => hl l' (by simp [hl'])) h
      exact ⟨cur', hcur', by rw [hc', hc₁]⟩

theorem foldl_total_invariant :
    ∀ {rest : List PStr} {st st' : LcovState} {cur : FileEntry},
      st.current = some cur →
      (∀ l ∈ rest, lineIsDA l = false ∧ lineIsLF l = false
        ∧ lineIsSF l = false ∧ lineIsEOR l = false) →
      List.foldlM lcovStep st rest = .ok st' →
      ∃ cur', st'.current = some cur'
        ∧ cur'.lines_total = cur.lines_total := by
  intro rest
  induction rest with
  | nil =>
    intro st st' cur hcur _ h
    simp only [List.foldlM_nil] at h
    cases h
    exact ⟨cur, hcur, rfl⟩
  | cons l t ih =>
    intro st st' cur hcur hl h
    simp only [List.foldlM_cons] at h
    cases hstep : lcovStep st l with
    | error e => rw [hstep, exBindErr] at h; exact absurd h (by simp)
    | ok st₁ =>
      rw [hstep, exBindOk] at h
      obtain ⟨hDA, hLF, hSF, hEOR⟩ := hl l (by simp)
      obtain ⟨cur₁, hcur₁, hc₁⟩ :=
        lcovStep_total_invariant hcur hDA hLF hSF hEOR hstep
      obtain ⟨cur', hcur', hc'⟩ :=
        ih hcur₁ (fun l' hl' => hl l' (by simp [hl'])) h
      exact ⟨cur', hcur', by rw [hc', hc₁]⟩

/-- C7 counterexample: in the record `SF:a / DA:1,1 / LH:5 / DA:2,1 /
end_of_record` the last (only) `LH:` value is 5, yet the flushed file has
`lines_covered = 6`: the parser applies writes in encounter order, so the
`DA:` line after `LH:` increments the overridden counter again.  The claim's
"final value equals the last `LH:`/`LF:` value" is false for such records. -/
theorem lcov_lh_override_counterexample :
    ((parseLcovLines cx7lines).toOption.map fun r =>
        r.files.map (fun fe => fe.lines_covered)) = some [6]
    ∧ ((6 : Int) = 5) = False := by
  exact ⟨by decide, by simp⟩

/-- C7 amended: `LH:`/`LF:` overwrite the running per-file counters in
encounter order.  Provided no later line of the record re-touches the
counter — no `DA:` or second `LH:` (resp. `LF:`) before the record ends, the
standard LCOV emission order — the file's final `lines_covered`
(resp. `lines_total`) equals the `LH:` (resp. `LF:`) value, overriding
whatever the preceding `DA:` lines accumulated. -/
theorem lcov_lh_lf_override_amended :
    (∀ (st : LcovState) (cur : FileEntry) (lh d : PStr) (n : Int)
        (rest : List PStr) (st' : LcovState),
      st.current = some cur →
      pTrim lh = pstr "LH:" ++ d →
      pToInt d = some n →
      (∀ l ∈ rest, lineIsDA l = false ∧ lineIsLH l = false
        ∧ lineIsSF l = false ∧ lineIsEOR l = false) →
      List.foldlM lcovStep st (lh :: rest) = .ok st' →
      ∃ cur', st'.current = some cur' ∧ cur'.lines_covered = n)
    ∧ (∀ (st : LcovState) (cur : FileEntry) (lf d : PStr) (n : Int)
        (rest : List PStr) (st' : LcovState),
      st.current = some cur →
      pTrim lf = pstr "LF:" ++ d →
      pToInt d = some n →
      (∀ l ∈ rest, lineIsDA l = false ∧ lineIsLF l = false
        ∧ lineIsSF l = false ∧ lineIsEOR l = false) →
      List.foldlM lcovStep st (lf :: rest) = .ok st' →
      ∃ cur', st'.current = some cur' ∧ cur'.lines_total = n) := by
  constructor
  · intro st cur lh d n rest st' hcur hline hd hrest h
    simp only [List.foldlM_cons] at h
    rw [lcovStep_lh hcur hline hd, exBindOk] at h
    obtain ⟨cur', hcur', hc'⟩ := foldl_covered_invariant rfl hrest h
    exact ⟨cur', hcur', hc'⟩
  · intro st cur lf d n rest st' hcur hline hd hrest h
    simp only [List.foldlM_cons] at h
    rw [lcovStep_lf hcur hline hd, exBindOk] at h
    obtain ⟨cur', hcur', hc'⟩ := foldl_total_invariant rfl hrest h
    exact ⟨cur', hcur', hc'⟩

theorem lcov_lh_lf_override_amended_witness :
    w7state.current = some (initLcovFile (pstr "a"))
      ∧ pTrim (pstr "LH:7") = pstr "LH:" ++ pstr "7"
      ∧ pToInt (pstr "7") = some 7
      ∧ (∃ st' : LcovState,
          List.foldlM lcovStep w7state [pstr "LH:7", pstr "BRH:2"] = .ok st'
          ∧ ∃ cur', st'.current = some cur' ∧ cur'.lines_covered = 7) := by
  refine ⟨rfl, by decide, by decide, ?_⟩
  cases hst : List.foldlM lcovStep w7state [pstr "LH:7", pstr "BRH:2"] with
  | error e =>
    have hok : (List.foldlM lcovStep w7state
        [pstr "LH:7", pstr "BRH:2"]).isOk = true := by decide
    rw [hst] at hok
    exact absurd hok (by simp [Except.isOk, Except.toBool])
  | ok st' =>
    refine ⟨st', rfl, ?_⟩
    exact lcov_lh_lf_override_amended.1 w7state (initLcovFile (pstr "a"))
      (pstr "LH:7") (pstr "7") 7 [pstr "BRH:2"] st' rfl (by decide) (by decide)
      (by decide) hst

/-! ## Stable insertion sort: permutation and sortedness -/

theorem insertLe_perm {α : Type} (le : α → α → Bool) (x : α) :
    ∀ l : List α, (insertLe le x l).Perm (x :: l) := by
  intro l
  induction l with
  | nil => exact List.Perm.refl _
  | cons y ys ih =>
    unfold insertLe
    split
    · exact List.Perm.refl _
    · exact (List.Perm.cons y ih).trans (List.Perm.swap x y ys)

theorem sortLe_perm {α : Type} (le : α → α → Bool) :
    ∀ l : List α, (sortLe le l).Perm l := by
  intro l
  induction l with
  | nil => exact List.Perm.refl _
  | cons x xs ih =>
    unfold sortLe
    exact (insertLe_perm le x (sortLe le xs)).trans (List.Perm.cons x ih)

theorem insertLe_sorted {α : Type} {le : α → α → Bool}
    (htrans : ∀ a b c, le a b = true → le b c = true → le a c = true)
    (htot : ∀ a b, le a b = true ∨ le b a = true) (x : α) :
    ∀ {l : List α}, l.Pairwise (fun a b => le a b = true) →
      (insertLe le x l).Pairwise (fun a b => le a b = true) := by
  intro l
  induction l with
  | nil => intro _; simp [insertLe]
  | cons y ys ih =>
    intro hp
    rw [List.pairwise_cons] at hp
    unfold insertLe
    split
    · rename_i hxy
      refine List.Pairwise.cons ?_ (List.Pairwise.cons hp.1 hp.2)
      intro z hz
      rcases List.mem_cons.mp hz with rfl | hz
      · exact hxy
      · exact htrans x y z hxy (hp.1 z hz)
    · rename_i hxy
      have hyx : le y x = true := by
        rcases htot x y with h | h
        · exact absurd h hxy
        · exact h
      refine List.Pairwise.cons ?_ (ih hp.2)
      intro z hz
      have hz' : z = x ∨ z ∈ ys := by
        have hmem := (insertLe_perm le x ys).mem_iff.mp hz
        simpa using hmem
      rcases hz' with rfl | hz'
      · exact hyx
      · exact hp.1 z hz'

theorem sortLe_sorted {α : Type} {le : α → α → Bool}
    (htrans : ∀ a b c, le a b = true → le b c = true → le a c = true)
    (htot : ∀ a b, le a b = true ∨ le b a = true) :
    ∀ l : List α, (sortLe le l).Pairwise (fun a b => le a b = true) := by
  intro l
  induction l with
  | nil => simp [sortLe]
  | cons x xs ih =>
    unfold sortLe
    exact insertLe_sorted htrans htot x ih

/-! ## C8: coverage gaps are the maximal runs of uncovered lines -/

theorem intAsc_trans :
    ∀ a b c : Int, intAsc a b = true → intAsc b c = true → intAsc a c = true := by
  intro a b c h1 h2
  unfold intAsc at h1 h2 ⊢
  simp only [decide_eq_true_eq] at h1 h2 ⊢
  omega

theorem intAsc_total : ∀ a b : Int, intAsc a b = true ∨ intAsc b a = true := by
  intro a b
  unfold intAsc
  simp only [decide_eq_true_eq]
  omega

theorem uncoveredKeys_mem {m : List (Int × Bool)} {n : Int} :
    n ∈ uncoveredKeys m ↔ (n, false) ∈ m := by
  unfold uncoveredKeys
  constructor
  · intro h
    obtain ⟨p, hp, hn⟩ := List.mem_map.mp h
    obtain ⟨hmem, hb⟩ := List.mem_filter.mp hp
    have hp2 : p.2 = false := by
      cases hb2 : p.2
      · rfl
      · rw [hb2] at hb; exact absurd hb (by simp)
    have : p = (n, false) := by
      cases p
      simp only at hn hp2
      rw [hn, hp2]
    rw [← this]
    exact hmem
  · intro h
    exact List.mem_map.mpr ⟨(n, false), List.mem_filter.mpr ⟨h, rfl⟩, rfl⟩

theorem uncoveredKeys_nodup {m : List (Int × Bool)}
    (hnd : (m.map Prod.fst).Nodup) : (uncoveredKeys m).Nodup := by
  unfold uncoveredKeys
  exact hnd.sublist ((List.filter_sublist m).map Prod.fst)

theorem buildGaps_spec :
    ∀ (t : List Int) (s e : Int), s ≤ e → List.Chain (· < ·) e t →
      (∀ g ∈ buildGaps s e t, s ≤ g.1 ∧ g.1 ≤ g.2)
      ∧ List.Pairwise (fun g g' => g.2 + 1 < g'.1) (buildGaps s e t)
      ∧ (∀ n : Int, (∃ g ∈ buildGaps s e t, g.1 ≤ n ∧ n ≤ g.2)
          ↔ ((s ≤ n ∧ n ≤ e) ∨ n ∈ t)) := by
  intro t
  induction t with
  | nil =>
    intro s e hse _
    refine ⟨?_, ?_, ?_⟩
    · intro g hg
      rw [buildGaps] at hg
      rcases List.mem_cons.mp hg with rfl | hg
      · exact ⟨le_rfl, hse⟩
      · exact absurd hg (by simp)
    · rw [buildGaps]
      simp
    · intro n
      rw [buildGaps]
      constructor
      · rintro ⟨g, hg, h1, h2⟩
        rcases List.mem_cons.mp hg with rfl | hg
        · exact .inl ⟨h1, h2⟩
        · exact absurd hg (by simp)
      · rintro (⟨h1, h2⟩ | h3)
        · exact ⟨(s, e), by simp, h1, h2⟩
        · exact absurd h3 (by simp)
  | cons m t ih =>
    intro s e hse hchain
    rw [List.chain_cons] at hchain
    rw [buildGaps]
    by_cases hm : m = e + 1
    · rw [if_pos hm]
      have hsm : s ≤ m := by omega
      obtain ⟨ha, hb, hc⟩ := ih s m hsm hchain.2
      refine ⟨ha, hb, ?_⟩
      intro n
      rw [hc n]
      constructor
      · rintro (⟨h1, h2⟩ | h3)
        · by_cases hne : n ≤ e
          · exact .inl ⟨h1, hne⟩
          · have hnm : n = m := by omega
            exact .inr (hnm ▸ List.mem_cons_self m t)
        · exact .inr (List.mem_cons_of_mem m h3)
      · rintro (⟨h1, h2⟩ | h3)
        · exact .inl ⟨h1, by omega⟩
        · rcases List.mem_cons.mp h3 with rfl | h4
          · exact .inl ⟨by omega, le_rfl⟩
          · exact .inr h4
    · rw [if_neg hm]
      have hem : e + 1 < m := by
        have h1 := hchain.1
        omega
      obtain ⟨ha, hb, hc⟩ := ih m m le_rfl hchain.2
      refine ⟨?_, ?_, ?_⟩
      · intro g hg
        rcases List.mem_cons.mp hg with rfl | hg
        · exact ⟨le_rfl, hse⟩
        · obtain ⟨h1, h2⟩ := ha g hg
          exact ⟨by omega, h2⟩
      · refine List.Pairwise.cons ?_ hb
        intro g' hg'
        obtain ⟨h1, _⟩ := ha g' hg'
        show e + 1 < g'.1
        omega
      · intro n
        constructor
        · rintro ⟨g, hg, hg1, hg2⟩
          rcases List.mem_cons.mp hg with rfl | hg
          · exact .inl ⟨hg1, hg2⟩
          · rcases (hc n).mp ⟨g, hg, hg1, hg2⟩ with ⟨h1, h2⟩ | h3
            · have hnm : n = m := le_antisymm h2 h1
              exact .inr (hnm ▸ List.mem_cons_self m t)
            · exact .inr (List.mem_cons_of_mem m h3)
        · rintro (⟨h1, h2⟩ | h3)
          · exact ⟨(s, e), by simp, h1, h2⟩
          · rcases List.mem_cons.mp h3 with rfl | h4
            · obtain ⟨g, hg, hg1, hg2⟩ := (hc n).mpr (.inl ⟨le_rfl, le_rfl⟩)
              exact ⟨g, by simp [hg], hg1, hg2⟩
            · obtain ⟨g, hg, hg1, hg2⟩ := (hc n).mpr (.inr h4)
              exact ⟨g, by simp [hg], hg1, hg2⟩

/-- C8: on a line-coverage map with distinct line numbers, the computed
`coverage_gaps` are exactly the maximal runs of consecutive uncovered lines,
sorted ascending, as inclusive ranges: every range is nonempty (`start ≤
end`), successive ranges are separated by at least one line that is not
uncovered (so no two runs merge and the order is ascending), and a line
number lies in some range exactly when the map sends it to `false`.  The
empty map yields no gaps, and the spec's example map `{1:F, 2:F, 3:T, 5:F}`
yields `[(1,2), (5,5)]` (an isolated uncovered line yields `start = end`). -/
theorem coverage_gaps_maximal_runs (m : List (Int × Bool))
    (hnd : (m.map Prod.fst).Nodup) :
    (∀ g ∈ coverageGaps m, g.1 ≤ g.2)
    ∧ List.Pairwise (fun g g' => g.2 + 1 < g'.1) (coverageGaps m)
    ∧ (∀ n : Int, (∃ g ∈ coverageGaps m, g.1 ≤ n ∧ n ≤ g.2) ↔ (n, false) ∈ m)
    ∧ coverageGaps [] = []
    ∧ coverageGaps w8map = [(1, 2), (5, 5)] := by
  unfold coverageGaps
  cases hsort : sortLe intAsc (uncoveredKeys m) with
  | nil =>
    refine ⟨by simp, by simp, ?_, rfl, by decide⟩
    intro n
    constructor
    · rintro ⟨g, hg, _⟩
      exact absurd hg (by simp)
    · intro h
      have hmem : n ∈ sortLe intAsc (uncoveredKeys m) :=
        (sortLe_perm intAsc (uncoveredKeys m)).mem_iff.mpr (uncoveredKeys_mem.mpr h)
      rw [hsort] at hmem
      exact absurd hmem (by simp)
  | cons h t =>
    have hsorted := sortLe_sorted intAsc_trans intAsc_total (uncoveredKeys m)
    have hnodup : (sortLe intAsc (uncoveredKeys m)).Nodup :=
      ((sortLe_perm intAsc (uncoveredKeys m)).nodup_iff).mpr (uncoveredKeys_nodup hnd)
    have hlt : (sortLe intAsc (uncoveredKeys m)).Pairwise (· < ·) := by
      refine (hsorted.and hnodup).imp ?_
      rintro a b ⟨hle, hne⟩
      have hle' : a ≤ b := by
        unfold intAsc at hle
        exact of_decide_eq_true hle
      exact lt_of_le_of_ne hle' hne
    rw [hsort] at hlt
    have hchain : List.Chain (· < ·) h t := by
      rw [List.chain_iff_pairwise]
      exact hlt
    obtain ⟨ha, hb, hc⟩ := buildGaps_spec t h h le_rfl hchain
    refine ⟨fun g hg => (ha g hg).2, hb, ?_, rfl, by decide⟩
    intro n
    rw [hc n]
    have hmem : n ∈ h :: t ↔ (n, false) ∈ m := by
      rw [← hsort, (sortLe_perm intAsc (uncoveredKeys m)).mem_iff]
      exact uncoveredKeys_mem
    constructor
    · rintro (⟨h1, h2⟩ | h3)
      · have hnh : n = h := le_antisymm h2 h1
        exact hmem.mp (hnh ▸ List.mem_cons_self h t)
      · exact hmem.mp (List.mem_cons_of_mem h h3)
    · intro hnf
      rcases List.mem_cons.mp (hmem.mpr hnf) with rfl | h4
      · exact .inl ⟨le_rfl, le_rfl⟩
      · exact .inr h4

theorem coverage_gaps_maximal_runs_witness :
    coverageGaps w8map = [(1, 2), (5, 5)]
      ∧ ((w8map.map Prod.fst).Nodup ∧ coverageGaps [] = []) :=
  ⟨(coverage_gaps_maximal_runs w8map (by decide)).2.2.2.2,
   by decide, (coverage_gaps_maximal_runs w8map (by decide)).2.2.2.1⟩

/-! ## C9: diff engine -/

theorem dictInsert_mem_keys {β : Type} {d : List (PStr × β)} {k : PStr} {v : β}
    {q : PStr} :
    q ∈ (dictInsert d k v).map Prod.fst ↔ q ∈ d.map Prod.fst ∨ q = k := by
  unfold dictInsert
  split
  · rename_i ha
    obtain ⟨p, hp, hpk⟩ := List.any_eq_true.mp ha
    have hk : k ∈ d.map Prod.fst := by
      refine List.mem_map.mpr ⟨p, hp, ?_⟩
      exact eq_of_beq hpk
    have hmap : (d.map (fun p => if p.1 == k then (k, v) else p)).map Prod.fst
        = d.map Prod.fst := by
      rw [List.map_map]
      refine List.map_congr_left ?_
      intro p' _
      by_cases hp' : (p'.1 == k) = true
      · simp only [Function.comp, hp', if_pos]
        exact (eq_of_beq hp').symm
      · simp only [Function.comp, hp']
        rw [if_neg]
        simp [hp']
    rw [hmap]
    constructor
    · exact Or.inl
    · rintro (hq | rfl)
      · exact hq
      · exact hk
  · rw [List.map_append]
    simp only [List.map_cons, List.map_nil, List.mem_append, List.mem_singleton]

theorem dictInsert_keys_nodup {β : Type} {d : List (PStr × β)} {k : PStr} {v : β}
    (h : (d.map Prod.fst).Nodup) : ((dictInsert d k v).map Prod.fst).Nodup := by
  unfold dictInsert
  split
  · rename_i ha
    have hmap : (d.map (fun p => if p.1 == k then (k, v) else p)).map Prod.fst
        = d.map Prod.fst := by
      rw [List.map_map]
      refine List.map_congr_left ?_
      intro p' _
      by_cases hp' : (p'.1 == k) = true
      · simp only [Function.comp, hp', if_pos]
        exact (eq_of_beq hp').symm
      · simp only [Function.comp, hp']
        rw [if_neg]
        simp [hp']
    rw [hmap]
    exact h
  · rename_i ha
    rw [List.map_append]
    have hk : k ∉ d.map Prod.fst := by
      intro hmem
      obtain ⟨p, hp, hpk⟩ := List.mem_map.mp hmem
      have hany : d.any (fun p => p.1 == k) = true :=
        List.any_eq_true.mpr ⟨p, hp, by rw [hpk]; exact beq_self_eq_true k⟩
      exact absurd hany ha
    simp only [List.map_cons, List.map_nil]
    rw [List.nodup_append]
    refine ⟨h, List.nodup_singleton k, ?_⟩
    intro a hamem hasingle
    rw [List.mem_singleton] at hasingle
    subst hasingle
    exact hk hamem

theorem buildDict_keys_nodup (rows : List (PStr × DbFileCov)) :
    ((buildDict rows).map Prod.fst).Nodup := by
  unfold buildDict
  suffices hgen : ∀ (rs : List (PStr × DbFileCov)) (d : List (PStr × DbFileCov)),
      (d.map Prod.fst).Nodup →
      ((rs.foldl (fun d p => dictInsert d p.1 p.2) d).map Prod.fst).Nodup by
    exact hgen rows [] List.nodup_nil
  intro rs
  induction rs with
  | nil =>
    intro d hd
    simp only [List.foldl_nil]
    exact hd
  | cons p t ih =>
    intro d hd
    simp only [List.foldl_cons]
    exact ih _ (dictInsert_keys_nodup hd)

theorem buildDict_mem_keys {rows : List (PStr × DbFileCov)} {q : PStr} :
    q ∈ (buildDict rows).map Prod.fst ↔ q ∈ rows.map Prod.fst := by
  unfold buildDict
  suffices hgen : ∀ (rs : List (PStr × DbFileCov)) (d : List (PStr × DbFileCov)),
      (q ∈ (rs.foldl (fun d p => dictInsert d p.1 p.2) d).map Prod.fst
        ↔ q ∈ d.map Prod.fst ∨ q ∈ rs.map Prod.fst) by
    rw [hgen rows []]
    simp only [List.map_nil, List.not_mem_nil, false_or]
  intro rs
  induction rs with
  | nil =>
    intro d
    simp only [List.foldl_nil, List.map_nil, List.not_mem_nil, or_false]
  | cons p t ih =>
    intro d
    simp only [List.foldl_cons, List.map_cons, List.mem_cons]
    rw [ih (dictInsert d p.1 p.2), dictInsert_mem_keys]
    tauto

theorem lookup_isSome_iff {β : Type} {d : List (PStr × β)} {k : PStr} :
    (d.lookup k).isSome = true ↔ k ∈ d.map Prod.fst := by
  induction d with
  | nil => simp [List.lookup]
  | cons p t ih =>
    rcases p with ⟨a, b⟩
    rw [List.map_cons, List.mem_cons]
    cases hk : k == a with
    | false =>
      have hne : k ≠ a := ne_of_beq_false hk
      rw [show List.lookup k ((a, b) :: t) = List.lookup k t by
        simp [List.lookup, hk]]
      rw [ih]
      constructor
      · exact Or.inr
      · rintro (rfl | h)
        · exact absurd rfl hne
        · exact h
    | true =>
      have heq : k = a := eq_of_beq hk
      rw [show List.lookup k ((a, b) :: t) = some b by simp [List.lookup, hk]]
      simp only [Option.isSome_some, true_iff]
      exact Or.inl heq

theorem unionKeys_mem {d1 d2 : List (PStr × DbFileCov)} {p : PStr} :
    p ∈ unionKeys d1 d2 ↔ p ∈ d1.map Prod.fst ∨ p ∈ d2.map Prod.fst := by
  unfold unionKeys
  rw [List.mem_append]
  constructor
  · rintro (h | h)
    · exact .inl h
    · exact .inr (List.mem_filter.mp h).1
  · rintro (h | h)
    · exact .inl h
    · by_cases h1 : p ∈ d1.map Prod.fst
      · exact .inl h1
      · refine .inr (List.mem_filter.mpr ⟨h, ?_⟩)
        have hcf : (d1.map Prod.fst).contains p = false := by
          cases hc : (d1.map Prod.fst).contains p
          · rfl
          · exact absurd (List.elem_iff.mp hc) h1
        rw [hcf]
        rfl

theorem unionKeys_nodup {d1 d2 : List (PStr × DbFileCov)}
    (h1 : (d1.map Prod.fst).Nodup) (h2 : (d2.map Prod.fst).Nodup) :
    (unionKeys d1 d2).Nodup := by
  unfold unionKeys
  rw [List.nodup_append]
  refine ⟨h1, h2.filter _, ?_⟩
  intro a ha hb
  have hc := (List.mem_filter.mp hb).2
  have h3 : (d1.map Prod.fst).contains a = true := List.elem_iff.mpr ha
  rw [h3] at hc
  exact absurd hc (by simp)

theorem mkFileChange_path (files1 files2 : List (PStr × DbFileCov)) (p : PStr) :
    (mkFileChange files1 files2 p).file_path = p := by
  unfold mkFileChange
  cases h1 : files1.lookup p <;> cases h2 : files2.lookup p <;> rfl

theorem mkFileChange_removed {files1 files2 : List (PStr × DbFileCov)} {p : PStr}
    {f1 : DbFileCov}
    (h1 : files1.lookup p = some f1) (h2 : files2.lookup p = none) :
    mkFileChange files1 files2 p
      = { file_path := p
          status := pstr "removed"
          coverage_change := -f1.coverage_percentage
          lines_change := -f1.lines_covered
          old_coverage := f1.coverage_percentage
          new_coverage := 0 } := by
  unfold mkFileChange
  rw [h1, h2]

theorem mkFileChange_added {files1 files2 : List (PStr × DbFileCov)} {p : PStr}
    {f2 : DbFileCov}
    (h1 : files1.lookup p = none) (h2 : files2.lookup p = some f2) :
    mkFileChange files1 files2 p
      = { file_path := p
          status := pstr "added"
          coverage_change := f2.coverage_percentage
          lines_change := f2.lines_covered
          old_coverage := 0
          new_coverage := f2.coverage_percentage } := by
  unfold mkFileChange
  rw [h1, h2]

theorem absDeltaGe_trans :
    ∀ a b c, absDeltaGe a b = true → absDeltaGe b c = true → absDeltaGe a c = true := by
  intro a b c h1 h2
  unfold absDeltaGe at h1 h2 ⊢
  simp only [decide_eq_true_eq] at h1 h2 ⊢
  exact le_trans h2 h1

theorem absDeltaGe_total : ∀ a b, absDeltaGe a b = true ∨ absDeltaGe b a = true := by
  intro a b
  unfold absDeltaGe
  simp only [decide_eq_true_eq]
  exact le_total _ _

/-- C9: the diff's `file_changes` list covers exactly the union of the two
reports' file-path sets (each path once); an entry whose path is only in
report A is the `removed` record with `coverage_change = −A.coverage
percentage`, `lines_change = −A.lines_covered`, before = A's percentage and
after = 0; a path only in report B gives the `added` record with B's values
and before = 0; and the list is sorted by `|coverage_change|` descending. -/
theorem compare_reports_diff_spec (r1 r2 : DbReport) :
    ((compareCoverageReports r1 r2).2.map (fun c => c.file_path)).Perm
        (unionKeys (buildDict r1.files) (buildDict r2.files))
    ∧ (∀ p : PStr, p ∈ unionKeys (buildDict r1.files) (buildDict r2.files)
        ↔ p ∈ r1.files.map Prod.fst ∨ p ∈ r2.files.map Prod.fst)
    ∧ ((compareCoverageReports r1 r2).2.map (fun c => c.file_path)).Nodup
    ∧ (∀ c ∈ (compareCoverageReports r1 r2).2, ∀ f1 : DbFileCov,
        (buildDict r1.files).lookup c.file_path = some f1 →
        (buildDict r2.files).lookup c.file_path = none →
        c = { file_path := c.file_path
              status := pstr "removed"
              coverage_change := -f1.coverage_percentage
              lines_change := -f1.lines_covered
              old_coverage := f1.coverage_percentage
              new_coverage := 0 })
    ∧ (∀ c ∈ (compareCoverageReports r1 r2).2, ∀ f2 : DbFileCov,
        (buildDict r1.files).lookup c.file_path = none →
        (buildDict r2.files).lookup c.file_path = some f2 →
        c = { file_path := c.file_path
              status := pstr "added"
              coverage_change := f2.coverage_percentage
              lines_change := f2.lines_covered
              old_coverage := 0
              new_coverage := f2.coverage_percentage })
    ∧ List.Pairwise (fun a b => |b.coverage_change| ≤ |a.coverage_change|)
        (compareCoverageReports r1 r2).2 := by
  have hres : (compareCoverageReports r1 r2).2
      = sortLe absDeltaGe
          ((unionKeys (buildDict r1.files) (buildDict r2.files)).map
            (mkFileChange (buildDict r1.files) (buildDict r2.files))) := rfl
  have hperm0 := sortLe_perm absDeltaGe
    ((unionKeys (buildDict r1.files) (buildDict r2.files)).map
      (mkFileChange (buildDict r1.files) (buildDict r2.files)))
  have hpath : ((unionKeys (buildDict r1.files) (buildDict r2.files)).map
        (mkFileChange (buildDict r1.files) (buildDict r2.files))).map
          (fun c => c.file_path)
      = unionKeys (buildDict r1.files) (buildDict r2.files) := by
    rw [List.map_map]
    have hfn : ∀ p ∈ unionKeys (buildDict r1.files) (buildDict r2.files),
        ((fun c => c.file_path) ∘ mkFileChange (buildDict r1.files) (buildDict r2.files)) p
          = id p :=
      fun p _ => mkFileChange_path (buildDict r1.files) (buildDict r2.files) p
    rw [List.map_congr_left hfn, List.map_id]
  have hpm : ((compareCoverageReports r1 r2).2.map (fun c => c.file_path)).Perm
      (unionKeys (buildDict r1.files) (buildDict r2.files)) := by
    rw [hres]
    have h1 := hperm0.map (fun c => c.file_path)
    rw [hpath] at h1
    exact h1
  refine ⟨hpm, ?_, ?_, ?_, ?_, ?_⟩
  · intro p
    exact unionKeys_mem.trans (or_congr buildDict_mem_keys buildDict_mem_keys)
  · exact hpm.nodup_iff.mpr
      (unionKeys_nodup (buildDict_keys_nodup r1.files) (buildDict_keys_nodup r2.files))
  · intro c hc f1 h1 h2
    rw [hres] at hc
    have hc' := hperm0.mem_iff.mp hc
    obtain ⟨p, hp, hcp⟩ := List.mem_map.mp hc'
    have hpc : c.file_path = p := by
      rw [← hcp]
      exact mkFileChange_path _ _ p
    rw [hpc] at h1 h2
    rw [← hcp, mkFileChange_removed h1 h2]
  · intro c hc f2 h1 h2
    rw [hres] at hc
    have hc' := hperm0.mem_iff.mp hc
    obtain ⟨p, hp, hcp⟩ := List.mem_map.mp hc'
    have hpc : c.file_path = p := by
      rw [← hcp]
      exact mkFileChange_path _ _ p
    rw [hpc] at h1 h2
    rw [← hcp, mkFileChange_added h1 h2]
  · rw [hres]
    refine (sortLe_sorted absDeltaGe_trans absDeltaGe_total _).imp ?_
    intro a b hab
    unfold absDeltaGe at hab
    exact of_decide_eq_true hab

theorem compare_reports_diff_spec_witness :
    ((compareCoverageReports w9a w9b).2.map (fun c =>
        (c.file_path, c.status, c.lines_change)))
      = [(pstr "x.py", pstr "removed", -5)]
    ∧ ((compareCoverageReports w9a w9b).2.map (fun c => c.coverage_change))
      = [-(50 : ℚ)] := by
  obtain ⟨hperm, _, _, hrem, _, _⟩ := compare_reports_diff_spec w9a w9b
  have hu : unionKeys (buildDict w9a.files) (buildDict w9b.files)
      = [pstr "x.py"] := rfl
  rw [hu] at hperm
  have hpaths : (compareCoverageReports w9a w9b).2.map (fun c => c.file_path)
      = [pstr "x.py"] := List.perm_singleton.mp hperm
  obtain ⟨c, hcres⟩ : ∃ c, (compareCoverageReports w9a w9b).2 = [c] := by
    cases hres : (compareCoverageReports w9a w9b).2 with
    | nil => rw [hres] at hpaths; exact absurd hpaths (by simp)
    | cons c t =>
      cases t with
      | nil => exact ⟨c, rfl⟩
      | cons c2 t2 => rw [hres] at hpaths; exact absurd hpaths (by simp)
  have hcp : c.file_path = pstr "x.py" := by
    rw [hcres] at hpaths
    simpa using hpaths
  have hlook1 : (buildDict w9a.files).lookup c.file_path = some w9row := by
    rw [hcp]; rfl
  have hlook2 : (buildDict w9b.files).lookup c.file_path = none := by
    rw [hcp]; rfl
  have hc := hrem c (by rw [hcres]; exact List.mem_singleton.mpr rfl) w9row hlook1 hlook2
  rw [hcres, hc, hcp]
  exact ⟨rfl, rfl⟩

end CodePulse
